import Mathlib

/-!
Shallow embedding of the navigation-mesh path planner (src/navmesh.rs):
A* search over a cell graph (`NavMesh.plan_channel`) followed by funnel
refinement (`refine_path`).  f32 scalars are idealized as real numbers, with
`f32::INFINITY` modelled by the top element of `WithTop ℝ`.  Panicking
operations (slice indexing, `expect`) are modelled in the `Except` monad; the
two unbounded `while` loops are modelled with explicit fuel, and theorems below
establish that the fuel chosen in the definitions is always sufficient, which
is the embedding of termination.  The external radix-heap priority queue is
modelled as a plain min-priority queue (pop an entry with minimal key).
-/

namespace Nav

/-- A 2D point, as the code's `na::Point2<f32>` with coordinates idealized as reals. -/
abbrev Point := ℝ × ℝ

/-- A portal: the pair of endpoints of a shared boundary segment (`[na::Point2<f32>; 2]`). -/
abbrev Portal := Point × Point

/-- Squared Euclidean distance, the code's `na::distance_squared`. -/
noncomputable def dist2 (a b : Point) : ℝ := (a.1 - b.1) ^ 2 + (a.2 - b.2) ^ 2

/-- Euclidean distance, the code's `na::distance`. -/
noncomputable def dst (a b : Point) : ℝ := Real.sqrt (dist2 a b)

/-- Twice the signed area of a triangle, translated from `fn area2`. -/
noncomputable def area2 (a b c : Point) : ℝ :=
  (b.1 - a.1) * (c.2 - a.2) - (c.1 - a.1) * (b.2 - a.2)

/-- Cost scalar: finite f32 values idealized as reals, plus the `f32::INFINITY` sentinel. -/
abbrev Cost := WithTop ℝ

/-- The panic outcomes of the Rust code: out-of-bounds indexing, the
`expect("unconnected graph")` failure, and exhaustion of the loop fuel used by
the embedding of the two `while` loops. -/
inductive PlanError where
  | indexOob
  | unconnectedGraph
  | fuelExhausted
deriving DecidableEq

/-- Checked list read: Rust slice indexing, which panics when out of bounds. -/
def getE {α : Type} (l : List α) (i : ℕ) : Except PlanError α :=
  match l.get? i with
  | some a => .ok a
  | none => .error .indexOob

/-- Checked list write: Rust slice index assignment, which panics when out of bounds. -/
def setE {α : Type} (l : List α) (i : ℕ) (a : α) : Except PlanError (List α) :=
  if i < l.length then .ok (l.set i a) else .error .indexOob

/-- `struct Edge`: a directed link to a neighbor cell carrying its portal segment. -/
structure Edge where
  vertices : Portal
  neighbor : ℕ

/-- `struct Node`: a mesh cell with a representative center and outgoing edges. -/
structure Node where
  center : Point
  edges : List Edge

/-- `struct NavMesh`: the vector of cells. -/
structure NavMesh where
  nodes : List Node

/-- `NavMesh::new`: plain construction, no validation. -/
def NavMesh.new (nodes : List Node) : NavMesh := ⟨nodes⟩

/-- `NavMesh::edge_cost`: Euclidean distance between the centers of the cell and
the chosen edge's neighbor. -/
noncomputable def NavMesh.edge_cost (m : NavMesh) (node : ℕ) (edge : ℕ) :
    Except PlanError ℝ := do
  let nd ← getE m.nodes node
  let e ← getE nd.edges edge
  let neighbor ← getE m.nodes e.neighbor
  pure (dst nd.center neighbor.center)

/-- `NavMesh::heuristic`: fold of `min` over the cell's edges, starting from
`f32::INFINITY`, of `distance_squared(vertices[0], goal).min(distance(vertices[1], goal))`. -/
noncomputable def NavMesh.heuristic (m : NavMesh) (node : ℕ) (goal : Point) :
    Except PlanError Cost := do
  let nd ← getE m.nodes node
  pure ((nd.edges.map fun x =>
    ((min (dist2 x.vertices.1 goal) (dst x.vertices.2 goal) : ℝ) : Cost)).foldl
      (fun x y => min x y) ⊤)

/-- The mutable state of the A* loop in `plan_channel`. -/
structure AState where
  frontier : List (Cost × ℕ)
  cost : List Cost
  came_from : List (Option (ℕ × ℕ))

/-- Pop an entry with minimal key from the frontier (the model of the radix
heap's `pop`, which returns an entry of minimal f-value under `Reverse` keys). -/
noncomputable def popMin : List (Cost × ℕ) → Option ((Cost × ℕ) × List (Cost × ℕ))
  | [] => none
  | x :: xs =>
    match popMin xs with
    | none => some (x, [])
    | some (y, rest) => if x.1 ≤ y.1 then some (x, xs) else some (y, x :: rest)

/-- The body of `for (i, next) in self.nodes[current].edges.iter().enumerate()`:
relax each outgoing edge of `current`, updating cost, frontier and
backpointers on strict improvement. -/
noncomputable def relaxEdges (m : NavMesh) (goal : Point) (current : ℕ) :
    List Edge → ℕ → AState → Except PlanError AState
  | [], _, s => pure s
  | e :: rest, i, s => do
    let next := e.neighbor
    let ccur ← getE s.cost current
    let ec ← m.edge_cost current i
    let next_cost := ccur + (ec : Cost)
    let cnext ← getE s.cost next
    if cnext ≤ next_cost then
      relaxEdges m goal current rest (i + 1) s
    else do
      let cost1 ← setE s.cost next next_cost
      let h ← m.heuristic next goal
      let came1 ← setE s.came_from next (some (current, i))
      relaxEdges m goal current rest (i + 1) ⟨(next_cost + h, next) :: s.frontier, cost1, came1⟩

/-- The `while let Some((_, current)) = frontier.pop()` loop of `plan_channel`,
with explicit fuel.  Popping the goal breaks out of the loop. -/
noncomputable def astarLoop (m : NavMesh) (goal_node : ℕ) (goal : Point) :
    ℕ → AState → Except PlanError AState
  | 0, _ => .error .fuelExhausted
  | fuel + 1, s =>
    match popMin s.frontier with
    | none => pure s
    | some (kc, rest) =>
      if kc.2 = goal_node then pure { s with frontier := rest }
      else do
        let nd ← getE m.nodes kc.2
        let s1 ← relaxEdges m goal kc.2 nd.edges 0 { s with frontier := rest }
        astarLoop m goal_node goal fuel s1

/-- Fuel for the A* loop; `astar_fuel_sufficient` below proves it always suffices. -/
def astarFuel (m : NavMesh) : ℕ :=
  m.nodes.length * (m.nodes.length + 1) ^ m.nodes.length + 2

/-- The backpointer walk at the end of `plan_channel`: starting from the goal
cell, follow `came_from` back to the start cell, pushing each traversed edge's
portal, and reverse the accumulated list at the end.  A `none` backpointer is
the `expect("unconnected graph")` panic. -/
def reconstruct (m : NavMesh) (start_node : ℕ) :
    ℕ → ℕ → List (Option (ℕ × ℕ)) → List Portal → Except PlanError (List Portal)
  | 0, _, _, _ => .error .fuelExhausted
  | fuel + 1, node, came, acc =>
    if node = start_node then pure acc.reverse
    else do
      let entry ← getE came node
      match entry with
      | none => .error .unconnectedGraph
      | some pe => do
        let nd ← getE m.nodes pe.1
        let e ← getE nd.edges pe.2
        reconstruct m start_node fuel pe.1 came (acc ++ [e.vertices])

/-- `NavMesh::plan_channel`: A* over the cell graph, then backpointer
reconstruction, returning the channel of portals ending in the `[goal, goal]`
sentinel. -/
noncomputable def NavMesh.plan_channel (m : NavMesh) (start_node goal_node : ℕ)
    (goal : Point) : Except PlanError (List Portal) := do
  let came_from : List (Option (ℕ × ℕ)) := List.replicate m.nodes.length none
  let cost0 : List Cost := List.replicate m.nodes.length ⊤
  let cost1 ← setE cost0 start_node (0 : Cost)
  let s ← astarLoop m goal_node goal (astarFuel m)
    ⟨[((0 : Cost), start_node)], cost1, came_from⟩
  reconstruct m start_node (m.nodes.length + 1) goal_node s.came_from [(goal, goal)]

/-- The mutable state of the funnel scan in `refine_path`. -/
structure RState where
  apex : Point
  left_index : ℕ
  right_index : ℕ
  i : ℕ
  result : List Point

/-- One iteration of the funnel scan of `refine_path` (assuming `s.i < channel.length`):
the two signed-area tests on the new portal's endpoints, with narrowing,
right-side collapse and left-side collapse.  The points `left` and `right`
are bound once at the top of the iteration, while `left_index` may be updated
by the first narrowing test before the second block runs, exactly as in the
source. -/
noncomputable def refineBody (channel : List Portal) (s : RState) : RState :=
  let portal := channel.getD s.i ((0, 0), (0, 0))
  let left := (channel.getD s.left_index ((0, 0), (0, 0))).1
  let right := (channel.getD s.right_index ((0, 0), (0, 0))).2
  if 0 ≤ area2 s.apex portal.1 right then
    let li1 := if 0 ≤ area2 s.apex left portal.1 then s.i else s.left_index
    if 0 ≤ area2 s.apex left portal.2 then
      let li2 := if 0 ≤ area2 s.apex portal.2 right then s.i else li1
      { s with left_index := li2, i := s.i + 1 }
    else
      ⟨left, li1 + 1, li1 + 2, li1 + 4, s.result ++ [left]⟩
  else
    ⟨right, s.right_index + 1, s.right_index + 1, s.right_index + 3, s.result ++ [right]⟩

/-- The `while i < channel.len()` loop of `refine_path`, with explicit fuel. -/
noncomputable def refineRun (channel : List Portal) : ℕ → RState → RState
  | 0, s => s
  | fuel + 1, s =>
    if s.i < channel.length then refineRun channel fuel (refineBody channel s) else s

/-- Fuel for the funnel scan; `refine_fuel_sufficient` below proves it always suffices. -/
def refineFuel (channel : List Portal) : ℕ :=
  (channel.length + 2) * (channel.length + 6) + channel.length + 4

/-- `fn refine_path`: run the funnel scan from the start point over the channel
and return the committed via-points. -/
noncomputable def refine_path (start : Point) (channel : List Portal) : List Point :=
  (refineRun channel (refineFuel channel) ⟨start, 0, 0, 1, []⟩).result

/-- `NavMesh::plan`: search for a channel, then refine it to a polyline. -/
noncomputable def NavMesh.plan (m : NavMesh) (start_node : ℕ) (start : Point)
    (goal_node : ℕ) (goal : Point) : Except PlanError (List Point) :=
  (m.plan_channel start_node goal_node goal).map fun channel => refine_path start channel

/-- The collapse steps of the funnel scan as the specification's words describe
them (for comparison with `refineBody`): on a right-side collapse both bound
indices restart just past the committed right edge and scanning resumes two
portals after it; a left-side collapse behaves the same way, mirrored.
Non-collapsing iterations are as in the code. -/
noncomputable def refineBodySpec (channel : List Portal) (s : RState) : RState :=
  let portal := channel.getD s.i ((0, 0), (0, 0))
  let left := (channel.getD s.left_index ((0, 0), (0, 0))).1
  let right := (channel.getD s.right_index ((0, 0), (0, 0))).2
  if 0 ≤ area2 s.apex portal.1 right then
    let li1 := if 0 ≤ area2 s.apex left portal.1 then s.i else s.left_index
    if 0 ≤ area2 s.apex left portal.2 then
      let li2 := if 0 ≤ area2 s.apex portal.2 right then s.i else li1
      { s with left_index := li2, i := s.i + 1 }
    else
      ⟨left, s.left_index + 1, s.left_index + 1, s.left_index + 2, s.result ++ [left]⟩
  else
    ⟨right, s.right_index + 1, s.right_index + 1, s.right_index + 2, s.result ++ [right]⟩

/-! Concrete funnel scenarios used to settle the claims about the collapse and
narrowing steps of `refine_path`. -/

/-- A channel whose second portal makes the funnel collapse on the right at the
first iteration (from apex `(0,0)`, the new left endpoint `(-1,1)` crosses
outside the bound through `(1,1)`). -/
def chRight : List Portal := [((9, 9), (1, 1)), ((-1, 1), (5, 5))]

/-- A channel whose second portal makes the funnel collapse on the left at the
first iteration (the scenario of the `right_corner` unit test with an
integer-coordinate goal). -/
def chLeft : List Portal := [((9, 0), (10, 1)), ((9, -5), (9, -5))]

/-- A channel whose second portal's right endpoint lies strictly inside both
funnel bounds while its left endpoint does not narrow the left side, so that
only the second narrowing branch of the loop body fires. -/
def chNarrow : List Portal := [((2, 2), (-2, 2)), ((4, 1), (-1, 2))]

/-- The initial funnel state of `refine_path` for a start point at the origin. -/
def rs0 : RState := ⟨(0, 0), 0, 0, 1, []⟩

/-- The two-cell mesh of the `right_corner` unit test: a corridor turning right
around the corner `(9,0)`. -/
noncomputable def meshRight : NavMesh :=
  ⟨[⟨(0, 0), [⟨((9, 0), (10, 1)), 1⟩]⟩, ⟨(9.5, -5), [⟨((10, 1), (9, 0)), 0⟩]⟩]⟩

/-- The two-cell mesh of the `left_corner` unit test: a corridor turning left
around the corner `(9,1)`. -/
noncomputable def meshLeft : NavMesh :=
  ⟨[⟨(0, 0), [⟨((10, 0), (9, 1)), 1⟩]⟩, ⟨(9.5, 5), [⟨((9, 1), (10, 0)), 0⟩]⟩]⟩

/-- The one-cell, zero-edge mesh of the `empty` unit test. -/
noncomputable def meshSingle : NavMesh := ⟨[⟨(0, 0), []⟩]⟩

/-- A mesh with two cells and no edges: the cells are mutually unreachable. -/
noncomputable def meshTwo : NavMesh := ⟨[⟨(0, 0), []⟩, ⟨(1, 1), []⟩]⟩

/-- Invariant of the funnel scan: both bound indices stay strictly below the
scan index, the right bound is at most one past the left bound, and all three
indices stay within a small margin of the channel length. -/
def InvR (len : ℕ) (s : RState) : Prop :=
  s.left_index < s.i ∧ s.right_index < s.i ∧ s.right_index ≤ s.left_index + 1 ∧
    s.left_index ≤ len ∧ s.right_index ≤ len + 1 ∧ s.i ≤ len + 3

/-- Termination measure of the funnel scan: collapses strictly increase the
right-bound index, ordinary iterations strictly increase the scan index. -/
def phi (len : ℕ) (s : RState) : ℕ :=
  (len + 2 - s.right_index) * (len + 6) + (len + 4 - s.i)

/-- Default node used by total indexing in the specification predicates. -/
noncomputable def dNode : Node := ⟨(0, 0), []⟩

/-- Default edge used by total indexing in the specification predicates. -/
noncomputable def dEdge : Edge := ⟨((0, 0), (0, 0)), 0⟩

/-- Validity of a mesh: every edge's neighbor index is a valid cell index. -/
def ValidMesh (m : NavMesh) : Prop :=
  ∀ nd ∈ m.nodes, ∀ e ∈ nd.edges, e.neighbor < m.nodes.length

/-- A chain of edges through the mesh, as a list of (cell, edge index) pairs in
travel order from the first cell to the second. -/
inductive EdgeChain (m : NavMesh) : ℕ → ℕ → List (ℕ × ℕ) → Prop where
  | nil (n : ℕ) : EdgeChain m n n []
  | cons {a c e : ℕ} {ed : Edge} {rest : List (ℕ × ℕ)} :
      (m.nodes.getD a dNode).edges.get? e = some ed →
      EdgeChain m ed.neighbor c rest → EdgeChain m a c ((a, e) :: rest)

/-- Graph reachability along mesh edges. -/
def Reachable (m : NavMesh) (a b : ℕ) : Prop := ∃ ch, EdgeChain m a b ch

/-- The portal recorded for a traversed edge, in the owning cell's local vertex
order. -/
noncomputable def portalOf (m : NavMesh) (pe : ℕ × ℕ) : Portal :=
  ((m.nodes.getD pe.1 dNode).edges.getD pe.2 dEdge).vertices

/-- Weight of a list of cells: the sum of center-to-center distances of
consecutive cells, the quantity accumulated by `edge_cost` along a route. -/
noncomputable def weight (m : NavMesh) : List ℕ → ℝ
  | [] => 0
  | [_] => 0
  | a :: b :: rest =>
      dst (m.nodes.getD a dNode).center (m.nodes.getD b dNode).center +
        weight m (b :: rest)

/-- A simple route for the cost-label invariant: starts at `start`, ends at
`n`, visits pairwise distinct cells below `N`. -/
def SimplePath (N start n : ℕ) (P : List ℕ) : Prop :=
  P.head? = some start ∧ P.getLast? = some n ∧ P.Nodup ∧ ∀ x ∈ P, x < N

/-- Every proper initial segment of the route is already priced at most its
weight. -/
def PrefixBound (m : NavMesh) (cost : List Cost) (P : List ℕ) : Prop :=
  ∀ k, k + 1 < P.length →
    cost.getD (P.getD k 0) ⊤ ≤ ((weight m (P.take (k + 1)) : ℝ) : Cost)

/-- All lists of length at most `k` with entries below `N`. -/
def listsLen (N : ℕ) : ℕ → Finset (List ℕ)
  | 0 => {[]}
  | k + 1 => {[]} ∪ (Finset.range N).biUnion fun a => (listsLen N k).image (a :: ·)

open Classical in
/-- The number of candidate simple-route labels strictly below a node's current
cost. -/
noncomputable def labelCount (m : NavMesh) (start : ℕ) (cost : List Cost) (n : ℕ) : ℕ :=
  ((listsLen m.nodes.length m.nodes.length).filter fun l =>
    SimplePath m.nodes.length start n (start :: l) ∧
      ((weight m (start :: l) : ℝ) : Cost) < cost.getD n ⊤).card

/-- Termination measure of the A* loop: every push strictly shrinks it. -/
noncomputable def mu (m : NavMesh) (start : ℕ) (s : AState) : ℕ :=
  ∑ n ∈ Finset.range m.nodes.length, labelCount m start s.cost n

/-- The relaxed condition for one node: every outgoing edge's target is priced
at most the node's cost plus the edge cost. -/
def RelaxedAll (m : NavMesh) (cost : List Cost) (n : ℕ) : Prop :=
  ∀ i ed, (m.nodes.getD n dNode).edges.get? i = some ed →
    cost.getD ed.neighbor ⊤ ≤ cost.getD n ⊤ +
      ((dst (m.nodes.getD n dNode).center
        (m.nodes.getD ed.neighbor dNode).center : ℝ) : Cost)

/-- The lexicographic order on (cost, timestamp) used to orient backpointers. -/
def LexLt (cost : List Cost) (τ : ℕ → ℕ) (p n : ℕ) : Prop :=
  cost.getD p ⊤ < cost.getD n ⊤ ∨
    (cost.getD p ⊤ = cost.getD n ⊤ ∧ τ p < τ n)

/-- Invariant of the A* loop state. -/
structure AInv (m : NavMesh) (start : ℕ) (s : AState) : Prop where
  costLen : s.cost.length = m.nodes.length
  cameLen : s.came_from.length = m.nodes.length
  frontierInv : ∀ kn ∈ s.frontier, kn.2 < m.nodes.length ∧
    s.cost.getD kn.2 ⊤ ≠ ⊤ ∧ Reachable m start kn.2
  costStart : s.cost.getD start ⊤ = 0
  cameStart : s.came_from.getD start none = none
  label : ∀ n, n < m.nodes.length → s.cost.getD n ⊤ ≠ ⊤ →
    ∃ P, SimplePath m.nodes.length start n P ∧
      s.cost.getD n ⊤ = ((weight m P : ℝ) : Cost) ∧ PrefixBound m s.cost P
  came : ∀ n, n < m.nodes.length → ∀ p e, s.came_from.getD n none = some (p, e) →
    p < m.nodes.length ∧
      (∃ ed, (m.nodes.getD p dNode).edges.get? e = some ed ∧ ed.neighbor = n) ∧
      s.cost.getD p ⊤ ≠ ⊤ ∧ s.cost.getD n ⊤ ≠ ⊤ ∧ Reachable m start p
  connected : ∀ n, n < m.nodes.length → s.cost.getD n ⊤ ≠ ⊤ → n ≠ start →
    s.came_from.getD n none ≠ none
  rank : ∃ τ : ℕ → ℕ, ∀ n, n < m.nodes.length → ∀ p e,
    s.came_from.getD n none = some (p, e) → LexLt s.cost τ p n

/-- The frontier-or-relaxed completeness invariant. -/
def EInv (m : NavMesh) (s : AState) : Prop :=
  ∀ n, n < m.nodes.length → s.cost.getD n ⊤ ≠ ⊤ →
    (∃ k, (k, n) ∈ s.frontier) ∨ RelaxedAll m s.cost n

/-- The partially-relaxed variant of `EInv` holding while the edges of
`current` with index below `i` have been scanned. -/
def EInvAt (m : NavMesh) (s : AState) (current : ℕ) (i : ℕ) : Prop :=
  (∀ n, n < m.nodes.length → s.cost.getD n ⊤ ≠ ⊤ → n ≠ current →
    (∃ k, (k, n) ∈ s.frontier) ∨ RelaxedAll m s.cost n) ∧
  ∀ j ed, j < i → (m.nodes.getD current dNode).edges.get? j = some ed →
    s.cost.getD ed.neighbor ⊤ ≤ s.cost.getD current ⊤ +
      ((dst (m.nodes.getD current dNode).center
        (m.nodes.getD ed.neighbor dNode).center : ℝ) : Cost)

open Classical in
/-- The number of nodes strictly below a node in the backpointer orientation;
the measure of the backpointer walk. -/
noncomputable def nu (m : NavMesh) (cost : List Cost) (τ : ℕ → ℕ) (x : ℕ) : ℕ :=
  ((Finset.range m.nodes.length).filter fun p => LexLt cost τ p x).card

/-- Claim C1, counterexample: the funnel-collapse restart offsets of the code
differ from the ones stated in the specification, on both a right-side and a
left-side collapse.  After a right collapse the code resumes scanning at
`right_index + 3`, not two portals after the committed edge; after a left
collapse the code is not the mirror image: it restarts the right bound two
past the committed edge and resumes at `left_index + 4`. -/
theorem c1_restart_counterexample :
    refineBody chRight rs0 ≠ refineBodySpec chRight rs0 ∧
      refineBody chLeft rs0 ≠ refineBodySpec chLeft rs0 := by
  have h1 : refineBody chRight rs0 = ⟨(1, 1), 1, 1, 3, [(1, 1)]⟩ := by
    simp only [refineBody, chRight, rs0, List.getD_cons_zero, List.getD_cons_succ]
    norm_num [area2]
  have h2 : refineBodySpec chRight rs0 = ⟨(1, 1), 1, 1, 2, [(1, 1)]⟩ := by
    simp only [refineBodySpec, chRight, rs0, List.getD_cons_zero, List.getD_cons_succ]
    norm_num [area2]
  have h3 : refineBody chLeft rs0 = ⟨(9, 0), 1, 2, 4, [(9, 0)]⟩ := by
    simp only [refineBody, chLeft, rs0, List.getD_cons_zero, List.getD_cons_succ]
    norm_num [area2]
  have h4 : refineBodySpec chLeft rs0 = ⟨(9, 0), 1, 1, 2, [(9, 0)]⟩ := by
    simp only [refineBodySpec, chLeft, rs0, List.getD_cons_zero, List.getD_cons_succ]
    norm_num [area2]
  constructor
  · rw [h1, h2]
    intro h
    have := congrArg RState.i h
    simp at this
  · rw [h3, h4]
    intro h
    have := congrArg RState.i h
    simp at this

/-- Claim C1, amended: on a right-side collapse (the new portal's left endpoint
crosses outside the apex-to-currentRight bound, `area2 < 0`) the current right
endpoint is committed as the next via-point and becomes the new apex, both
bound indices restart just past the committed edge (`right_index + 1`), and
scanning resumes three portals after the committed edge (`right_index + 3`).
On a left-side collapse the current left endpoint (bound at the top of the
iteration) is committed and becomes the new apex, but the offsets are not
mirrored: with `li1` the left-bound index as possibly advanced by the first
narrowing test, the left bound restarts at `li1 + 1`, the right bound at
`li1 + 2`, and scanning resumes at `li1 + 4`. -/
theorem c1_collapse_restart_offsets (channel : List Portal) (s : RState) :
    (area2 s.apex (channel.getD s.i ((0, 0), (0, 0))).1
        (channel.getD s.right_index ((0, 0), (0, 0))).2 < 0 →
      refineBody channel s =
        ⟨(channel.getD s.right_index ((0, 0), (0, 0))).2, s.right_index + 1,
          s.right_index + 1, s.right_index + 3,
          s.result ++ [(channel.getD s.right_index ((0, 0), (0, 0))).2]⟩) ∧
    (0 ≤ area2 s.apex (channel.getD s.i ((0, 0), (0, 0))).1
        (channel.getD s.right_index ((0, 0), (0, 0))).2 →
      area2 s.apex (channel.getD s.left_index ((0, 0), (0, 0))).1
        (channel.getD s.i ((0, 0), (0, 0))).2 < 0 →
      refineBody channel s =
        (let li1 := if 0 ≤ area2 s.apex (channel.getD s.left_index ((0, 0), (0, 0))).1
            (channel.getD s.i ((0, 0), (0, 0))).1 then s.i else s.left_index
        ⟨(channel.getD s.left_index ((0, 0), (0, 0))).1, li1 + 1, li1 + 2, li1 + 4,
          s.result ++ [(channel.getD s.left_index ((0, 0), (0, 0))).1]⟩)) := by
  constructor
  · intro h
    rw [refineBody, if_neg (not_le.mpr h)]
  · intro h1 h2
    rw [refineBody, if_pos h1, if_neg (not_le.mpr h2)]

/-- Claim C1, witness: the amended collapse characterization applied to the two
concrete collapse scenarios. -/
theorem c1_collapse_restart_offsets_witness :
    (area2 (0, 0) (-1, 1) (1, 1) < 0 ∧
      refineBody chRight rs0 = ⟨(1, 1), 1, 1, 3, [(1, 1)]⟩) ∧
    ((0 : ℝ) ≤ area2 (0, 0) (9, -5) (10, 1) ∧ area2 (0, 0) (9, 0) (9, -5) < 0 ∧
      refineBody chLeft rs0 = ⟨(9, 0), 1, 2, 4, [(9, 0)]⟩) := by
  have hr : area2 ((0 : ℝ), (0 : ℝ)) (-1, 1) (1, 1) < 0 := by norm_num [area2]
  have hl1 : (0 : ℝ) ≤ area2 (0, 0) (9, -5) (10, 1) := by norm_num [area2]
  have hl2 : area2 ((0 : ℝ), (0 : ℝ)) (9, 0) (9, -5) < 0 := by norm_num [area2]
  refine ⟨⟨hr, ?_⟩, hl1, hl2, ?_⟩
  · have := (c1_collapse_restart_offsets chRight rs0).1
    simp only [chRight, rs0, List.getD_cons_zero, List.getD_cons_succ] at this
    exact this hr
  · have := (c1_collapse_restart_offsets chLeft rs0).2
    simp only [chLeft, rs0, List.getD_cons_zero, List.getD_cons_succ] at this
    have h := this hl1 hl2
    rw [if_neg (not_le.mpr hl2)] at h
    simp only [chLeft, rs0]
    rw [h]
    simp

/-- Claim C2: evaluating the loop body of `refine_path` at a state where the new
portal's right endpoint lies inside both funnel bounds (and nothing else
fires) shows that the code advances the LEFT-bound index to the current portal
and leaves the right-bound index unchanged, where the specified symmetric
behavior would advance the right-bound index: the second narrowing branch
assigns `left_index = i` instead of `right_index = i`. -/
theorem c2_right_narrow_updates_left_index :
    (0 : ℝ) ≤ area2 (0, 0) (4, 1) (-2, 2) ∧
    area2 ((0 : ℝ), (0 : ℝ)) (2, 2) (4, 1) < 0 ∧
    (0 : ℝ) ≤ area2 (0, 0) (2, 2) (-1, 2) ∧
    (0 : ℝ) ≤ area2 (0, 0) (-1, 2) (-2, 2) ∧
    refineBody chNarrow rs0 = ⟨(0, 0), 1, 0, 2, []⟩ := by
  refine ⟨by norm_num [area2], by norm_num [area2], by norm_num [area2],
    by norm_num [area2], ?_⟩
  simp only [refineBody, chNarrow, rs0, List.getD_cons_zero, List.getD_cons_succ]
  norm_num [area2]

/-- Case analysis of one funnel iteration: either the scan index advances by
one and the left bound moves to the scan index or stays (narrowing), or a
left-side collapse commits the current left endpoint, or a right-side collapse
commits the current right endpoint. -/
theorem refineBody_cases (channel : List Portal) (s : RState) :
    (∃ li, (li = s.i ∨ li = s.left_index) ∧
        refineBody channel s = { s with left_index := li, i := s.i + 1 }) ∨
    (∃ li, (li = s.i ∨ li = s.left_index) ∧
        refineBody channel s = ⟨(channel.getD s.left_index ((0, 0), (0, 0))).1, li + 1,
          li + 2, li + 4, s.result ++ [(channel.getD s.left_index ((0, 0), (0, 0))).1]⟩) ∨
    refineBody channel s = ⟨(channel.getD s.right_index ((0, 0), (0, 0))).2,
      s.right_index + 1, s.right_index + 1, s.right_index + 3,
      s.result ++ [(channel.getD s.right_index ((0, 0), (0, 0))).2]⟩ := by
  simp only [refineBody]
  split_ifs
  · exact .inl ⟨s.i, .inl rfl, rfl⟩
  · exact .inl ⟨s.i, .inl rfl, rfl⟩
  · exact .inl ⟨s.left_index, .inr rfl, rfl⟩
  · exact .inr (.inl ⟨s.i, .inl rfl, rfl⟩)
  · exact .inr (.inl ⟨s.left_index, .inr rfl, rfl⟩)
  · exact .inr (.inr rfl)

/-- One funnel iteration below the channel length preserves the scan invariant
and strictly decreases the termination measure. -/
theorem refineBody_inv (channel : List Portal) {s : RState}
    (hInv : InvR channel.length s) (hi : s.i < channel.length) :
    InvR channel.length (refineBody channel s) ∧
      phi channel.length (refineBody channel s) < phi channel.length s := by
  obtain ⟨h1, h2, h3, h4, h5, h6⟩ := hInv
  rcases refineBody_cases channel s with ⟨li, hli, heq⟩ | ⟨li, hli, heq⟩ | heq
  · rw [heq]
    have hli2 : li ≤ s.i ∧ s.right_index ≤ li + 1 ∧ s.left_index ≤ li := by
      rcases hli with h | h <;> subst h <;> omega
    constructor
    · show li < s.i + 1 ∧ s.right_index < s.i + 1 ∧ s.right_index ≤ li + 1 ∧
        li ≤ channel.length ∧ s.right_index ≤ channel.length + 1 ∧
        s.i + 1 ≤ channel.length + 3
      omega
    · show (channel.length + 2 - s.right_index) * (channel.length + 6) +
          (channel.length + 4 - (s.i + 1)) <
        (channel.length + 2 - s.right_index) * (channel.length + 6) +
          (channel.length + 4 - s.i)
      exact Nat.add_lt_add_left (by omega) _
  · have hli2 : li < channel.length := by rcases hli with h | h <;> omega
    rw [heq]
    constructor
    · show li + 1 < li + 4 ∧ li + 2 < li + 4 ∧ li + 2 ≤ li + 1 + 1 ∧
        li + 1 ≤ channel.length ∧ li + 2 ≤ channel.length + 1 ∧
        li + 4 ≤ channel.length + 3
      omega
    · show (channel.length + 2 - (li + 2)) * (channel.length + 6) +
          (channel.length + 4 - (li + 4)) <
        (channel.length + 2 - s.right_index) * (channel.length + 6) +
          (channel.length + 4 - s.i)
      have hab : (channel.length + 2 - (li + 2)) + 1 ≤
          channel.length + 2 - s.right_index := by omega
      have hmul := Nat.mul_le_mul_right (channel.length + 6) hab
      rw [Nat.add_one_mul] at hmul
      generalize hA : (channel.length + 2 - (li + 2)) * (channel.length + 6) = A at hmul ⊢
      generalize hB : (channel.length + 2 - s.right_index) * (channel.length + 6) = B at hmul ⊢
      omega
  · rw [heq]
    constructor
    · show s.right_index + 1 < s.right_index + 3 ∧ s.right_index + 1 < s.right_index + 3 ∧
        s.right_index + 1 ≤ s.right_index + 1 + 1 ∧
        s.right_index + 1 ≤ channel.length ∧ s.right_index + 1 ≤ channel.length + 1 ∧
        s.right_index + 3 ≤ channel.length + 3
      omega
    · show (channel.length + 2 - (s.right_index + 1)) * (channel.length + 6) +
          (channel.length + 4 - (s.right_index + 3)) <
        (channel.length + 2 - s.right_index) * (channel.length + 6) +
          (channel.length + 4 - s.i)
      have hab : (channel.length + 2 - (s.right_index + 1)) + 1 ≤
          channel.length + 2 - s.right_index := by omega
      have hmul := Nat.mul_le_mul_right (channel.length + 6) hab
      rw [Nat.add_one_mul] at hmul
      generalize hA : (channel.length + 2 - (s.right_index + 1)) * (channel.length + 6) = A
        at hmul ⊢
      generalize hB : (channel.length + 2 - s.right_index) * (channel.length + 6) = B
        at hmul ⊢
      omega

/-- A funnel state whose scan index has passed the channel length is left
unchanged by any amount of further fuel. -/
theorem refineRun_fix (channel : List Portal) {s : RState}
    (h : ¬ s.i < channel.length) : ∀ fuel, refineRun channel fuel s = s := by
  intro fuel
  cases fuel with
  | zero => rfl
  | succ f => rw [refineRun, if_neg h]

/-- Fuel for the funnel scan composes additively. -/
theorem refineRun_add (channel : List Portal) :
    ∀ a b s, refineRun channel (a + b) s = refineRun channel b (refineRun channel a s) := by
  intro a
  induction a with
  | zero => intro b s; rw [Nat.zero_add]; rfl
  | succ a ih =>
    intro b s
    by_cases h : s.i < channel.length
    · have : a + 1 + b = (a + b) + 1 := by omega
      rw [this, refineRun, if_pos h, refineRun, if_pos h, ih]
    · rw [refineRun_fix channel h, refineRun_fix channel h,
        refineRun_fix channel h]

/-- With fuel at least the termination measure, the funnel scan reaches a state
whose scan index has passed the channel length. -/
theorem refineRun_term (channel : List Portal) :
    ∀ fuel s, InvR channel.length s → phi channel.length s ≤ fuel →
      ¬ (refineRun channel fuel s).i < channel.length := by
  intro fuel
  induction fuel with
  | zero =>
    intro s hInv hphi
    exfalso
    have : 1 ≤ phi channel.length s := by
      have : 1 ≤ channel.length + 4 - s.i := by
        obtain ⟨-, -, -, -, -, h6⟩ := hInv
        omega
      simp only [phi]
      omega
    omega
  | succ f ih =>
    intro s hInv hphi
    by_cases h : s.i < channel.length
    · rw [refineRun, if_pos h]
      obtain ⟨hInv2, hphi2⟩ := refineBody_inv channel hInv h
      exact ih _ hInv2 (by omega)
    · rw [refineRun, if_neg h]
      exact h

/-- Above the termination measure, extra fuel does not change the funnel scan. -/
theorem refineRun_stable (channel : List Portal) {s : RState}
    (hInv : InvR channel.length s) :
    ∀ fuel, phi channel.length s ≤ fuel →
      refineRun channel fuel s = refineRun channel (phi channel.length s) s := by
  intro fuel hle
  obtain ⟨g, rfl⟩ : ∃ g, fuel = phi channel.length s + g :=
    ⟨fuel - phi channel.length s, by omega⟩
  rw [refineRun_add]
  exact refineRun_fix channel (refineRun_term channel _ s hInv le_rfl) g

/-- The initial funnel state satisfies the scan invariant. -/
theorem InvR_init (len : ℕ) (p : Point) : InvR len ⟨p, 0, 0, 1, []⟩ := by
  show 0 < 1 ∧ 0 < 1 ∧ 0 ≤ 0 + 1 ∧ 0 ≤ len ∧ 0 ≤ len + 1 ∧ 1 ≤ len + 3
  omega

/-- The fuel built into `refine_path` dominates the termination measure of the
initial state. -/
theorem refineFuel_ge (channel : List Portal) (p : Point) :
    phi channel.length ⟨p, 0, 0, 1, []⟩ ≤ refineFuel channel := by
  show (channel.length + 2 - 0) * (channel.length + 6) + (channel.length + 4 - 1) ≤
    refineFuel channel
  simp only [refineFuel, Nat.sub_zero]
  generalize (channel.length + 2) * (channel.length + 6) = A
  omega

/-- Every via-point committed by the funnel scan is an endpoint of a portal
strictly before the final channel entry, provided the accumulated result
already has that property and both bounds are below the scan index. -/
theorem refineRun_result_src (channel : List Portal) :
    ∀ fuel s, s.left_index < s.i → s.right_index < s.i →
      (∀ x ∈ s.result, ∃ j, j + 1 < channel.length ∧
        (x = (channel.getD j ((0, 0), (0, 0))).1 ∨ x = (channel.getD j ((0, 0), (0, 0))).2)) →
      ∀ x ∈ (refineRun channel fuel s).result, ∃ j, j + 1 < channel.length ∧
        (x = (channel.getD j ((0, 0), (0, 0))).1 ∨ x = (channel.getD j ((0, 0), (0, 0))).2) := by
  intro fuel
  induction fuel with
  | zero => intro s h1 h2 hres; exact hres
  | succ f ih =>
    intro s h1 h2 hres
    by_cases h : s.i < channel.length
    · rw [refineRun, if_pos h]
      rcases refineBody_cases channel s with ⟨li, hli, heq⟩ | ⟨li, hli, heq⟩ | heq
      · rw [heq]
        refine ih _ ?_ ?_ hres <;> (rcases hli with h | h <;> simp <;> omega)
      · rw [heq]
        refine ih _ (by simp) (by simp) ?_
        intro x hx
        simp only [List.mem_append, List.mem_singleton] at hx
        rcases hx with hx | hx
        · exact hres x hx
        · exact ⟨s.left_index, by omega, .inl hx⟩
      · rw [heq]
        refine ih _ (by simp) (by simp) ?_
        intro x hx
        simp only [List.mem_append, List.mem_singleton] at hx
        rcases hx with hx | hx
        · exact hres x hx
        · exact ⟨s.right_index, by omega, .inr hx⟩
    · rw [refineRun, if_neg h]
      exact hres

/-- Claim C5: the sentinel portal never triggers a commit.  Every via-point
returned by `refine_path` is an endpoint of a portal strictly before the final
channel entry, so for a channel ending in the sentinel `[goal, goal]` whose
earlier portals avoid the goal point, the goal is never pushed into the
result. -/
theorem c5_sentinel_never_commits (start goal : Point) (channel : List Portal)
    (hlast : channel.getLast? = some (goal, goal))
    (hearlier : ∀ j, j + 1 < channel.length →
      (channel.getD j ((0, 0), (0, 0))).1 ≠ goal ∧
        (channel.getD j ((0, 0), (0, 0))).2 ≠ goal) :
    goal ∉ refine_path start channel ∧
      ∀ x ∈ refine_path start channel, ∃ j, j + 1 < channel.length ∧
        (x = (channel.getD j ((0, 0), (0, 0))).1 ∨
          x = (channel.getD j ((0, 0), (0, 0))).2) := by
  have hsrc := refineRun_result_src channel (refineFuel channel) ⟨start, 0, 0, 1, []⟩
    Nat.one_pos Nat.one_pos (by intro x hx; simp at hx)
  constructor
  · intro hmem
    obtain ⟨j, hj, hor⟩ := hsrc goal hmem
    obtain ⟨hl, hr⟩ := hearlier j hj
    rcases hor with h | h
    · exact hl h.symm
    · exact hr h.symm
  · exact hsrc

/-- Claim C5, witness: the `left_corner` channel with integer goal, whose
non-sentinel portal avoids the goal point. -/
theorem c5_sentinel_never_commits_witness :
    chLeft.getLast? = some (((9 : ℝ), (-5 : ℝ)), ((9 : ℝ), (-5 : ℝ))) ∧
      ((9 : ℝ), (-5 : ℝ)) ∉ refine_path (0, 0) chLeft := by
  have hlast : chLeft.getLast? = some (((9 : ℝ), (-5 : ℝ)), ((9 : ℝ), (-5 : ℝ))) := by
    simp [chLeft]
  refine ⟨hlast, ?_⟩
  refine (c5_sentinel_never_commits (0, 0) ((9 : ℝ), (-5 : ℝ)) chLeft hlast ?_).1
  intro j hj
  have hj2 : j = 0 := by simp [chLeft] at hj; omega
  subst hj2
  refine ⟨?_, ?_⟩ <;> norm_num [chLeft, List.getD_cons_zero, Prod.ext_iff]

/-- Folding `min` from an initial value yields a result below the initial value. -/
theorem foldl_min_le_init (l : List Cost) :
    ∀ a : Cost, l.foldl (fun x y => min x y) a ≤ a := by
  induction l with
  | nil => intro a; exact le_rfl
  | cons x xs ih =>
    intro a
    exact le_trans (ih (min a x)) (min_le_left a x)

/-- Folding `min` yields a result below every list element. -/
theorem foldl_min_le_mem (l : List Cost) :
    ∀ a : Cost, ∀ x ∈ l, l.foldl (fun x y => min x y) a ≤ x := by
  induction l with
  | nil => intro a x hx; exact absurd hx (by simp)
  | cons y ys ih =>
    intro a x hx
    rcases List.mem_cons.mp hx with rfl | hx
    · exact le_trans (foldl_min_le_init ys (min a x)) (min_le_right a x)
    · exact ih (min a y) x hx

/-- Folding `min` yields either the initial value or some list element. -/
theorem foldl_min_attained (l : List Cost) :
    ∀ a : Cost, l.foldl (fun x y => min x y) a = a ∨
      l.foldl (fun x y => min x y) a ∈ l := by
  induction l with
  | nil => intro a; exact .inl rfl
  | cons y ys ih =>
    intro a
    rcases ih (min a y) with h | h
    · rcases min_cases a y with ⟨hm, -⟩ | ⟨hm, -⟩
      · exact .inl (by rw [List.foldl_cons, h, hm])
      · exact .inr (by rw [List.foldl_cons, h, hm]; exact List.mem_cons_self y ys)
    · exact .inr (List.mem_cons_of_mem y h)

/-- Claim C3: for every node of the mesh and every goal point, the A* heuristic
value is the minimum, over the node's outgoing edges, of the smaller of the
squared distance from the first portal endpoint to the goal and the unsquared
distance from the second portal endpoint to the goal, and is the infinity
sentinel for a node with no outgoing edges. -/
theorem c3_heuristic_min (m : NavMesh) (n : ℕ) (goal : Point)
    (hn : n < m.nodes.length) :
    ∃ nd, m.nodes.get? n = some nd ∧ ∃ h : Cost, m.heuristic n goal = .ok h ∧
      (nd.edges = [] → h = ⊤) ∧
      (∀ e ∈ nd.edges,
        h ≤ ((min (dist2 e.vertices.1 goal) (dst e.vertices.2 goal) : ℝ) : Cost)) ∧
      (nd.edges ≠ [] → ∃ e ∈ nd.edges,
        h = ((min (dist2 e.vertices.1 goal) (dst e.vertices.2 goal) : ℝ) : Cost)) := by
  cases hget : m.nodes.get? n with
  | none => exact absurd (List.get?_eq_none.mp hget) (by omega)
  | some nd =>
    refine ⟨nd, rfl, ?_⟩
    have hh : m.heuristic n goal = .ok ((nd.edges.map fun x =>
        ((min (dist2 x.vertices.1 goal) (dst x.vertices.2 goal) : ℝ) : Cost)).foldl
          (fun x y => min x y) ⊤) := by
      simp only [NavMesh.heuristic, getE, hget]
      rfl
    refine ⟨_, hh, ?_, ?_, ?_⟩
    · intro he
      rw [he]
      rfl
    · intro e he
      exact foldl_min_le_mem _ ⊤ _ (List.mem_map_of_mem _ he)
    · intro hne
      rcases foldl_min_attained ((nd.edges.map fun x =>
          ((min (dist2 x.vertices.1 goal) (dst x.vertices.2 goal) : ℝ) : Cost))) ⊤ with h | h
      · exfalso
        obtain ⟨e0, he0⟩ := List.exists_mem_of_ne_nil nd.edges hne
        have hle := foldl_min_le_mem ((nd.edges.map fun x =>
            ((min (dist2 x.vertices.1 goal) (dst x.vertices.2 goal) : ℝ) : Cost))) ⊤ _
          (List.mem_map_of_mem _ he0)
        rw [h] at hle
        exact absurd (lt_of_le_of_lt hle (WithTop.coe_lt_top _)) (lt_irrefl ⊤)
      · obtain ⟨e, he, heq⟩ := List.mem_map.mp h
        exact ⟨e, he, heq.symm⟩

/-- Claim C3, witness: the heuristic characterization applied to node 0 of the
`right_corner` mesh. -/
theorem c3_heuristic_min_witness :
    0 < meshRight.nodes.length ∧
      ∃ nd, meshRight.nodes.get? 0 = some nd ∧
        ∃ h : Cost, meshRight.heuristic 0 ((9.5 : ℝ), (-5 : ℝ)) = .ok h ∧
          (nd.edges = [] → h = ⊤) ∧
          (∀ e ∈ nd.edges, h ≤ ((min (dist2 e.vertices.1 ((9.5 : ℝ), (-5 : ℝ)))
            (dst e.vertices.2 ((9.5 : ℝ), (-5 : ℝ))) : ℝ) : Cost)) ∧
          (nd.edges ≠ [] → ∃ e ∈ nd.edges, h = ((min (dist2 e.vertices.1 ((9.5 : ℝ), (-5 : ℝ)))
            (dst e.vertices.2 ((9.5 : ℝ), (-5 : ℝ))) : ℝ) : Cost)) := by
  refine ⟨by simp [meshRight], ?_⟩
  exact c3_heuristic_min meshRight 0 ((9.5 : ℝ), (-5 : ℝ)) (by simp [meshRight])

/-- Bind on a successful `Except` computation reduces. -/
@[simp] theorem okBind {α β : Type} (a : α) (f : α → Except PlanError β) :
    (Except.ok a >>= f) = f a := rfl

/-- Bind on a pure `Except` computation reduces. -/
@[simp] theorem pureBind {α β : Type} (a : α) (f : α → Except PlanError β) :
    ((pure a : Except PlanError α) >>= f) = f a := rfl

/-- Bind on a failed `Except` computation short-circuits. -/
@[simp] theorem errBind {α β : Type} (e : PlanError) (f : α → Except PlanError β) :
    ((Except.error e : Except PlanError α) >>= f) = .error e := rfl

/-- Mapping over a successful `Except` computation reduces. -/
@[simp] theorem okMap {α β : Type} (a : α) (f : α → β) :
    (Except.ok a : Except PlanError α).map f = .ok (f a) := rfl

/-- Mapping over a failed `Except` computation short-circuits. -/
@[simp] theorem errMap {α β : Type} (e : PlanError) (f : α → β) :
    (Except.error e : Except PlanError α).map f = .error e := rfl

/-- The A* fuel is at least two. -/
theorem astarFuel_ge_two (m : NavMesh) : 2 ≤ astarFuel m := by
  simp only [astarFuel]
  omega

/-- Unfolding the A* loop when the frontier is exhausted. -/
theorem astarLoop_none (m : NavMesh) (gn : ℕ) (gp : Point) (f : ℕ) (s : AState)
    (h : popMin s.frontier = none) :
    astarLoop m gn gp (f + 1) s = pure s := by
  rw [astarLoop, h]

/-- Unfolding the A* loop when an entry is popped. -/
theorem astarLoop_some (m : NavMesh) (gn : ℕ) (gp : Point) (f : ℕ) (s : AState)
    (kc : Cost × ℕ) (rest : List (Cost × ℕ)) (h : popMin s.frontier = some (kc, rest)) :
    astarLoop m gn gp (f + 1) s =
      (if kc.2 = gn then pure { s with frontier := rest }
       else do
         let nd ← getE m.nodes kc.2
         let s1 ← relaxEdges m gp kc.2 nd.edges 0 { s with frontier := rest }
         astarLoop m gn gp f s1) := by
  rw [astarLoop, h]

/-- Unfolding the A* loop when the frontier holds exactly the goal node. -/
theorem astarLoop_one (m : NavMesh) (gn : ℕ) (gp : Point) (f : ℕ) (k : Cost)
    (cost : List Cost) (came : List (Option (ℕ × ℕ))) :
    astarLoop m gn gp (f + 1) ⟨[(k, gn)], cost, came⟩ = pure ⟨[], cost, came⟩ := by
  rw [astarLoop_some m gn gp f ⟨[(k, gn)], cost, came⟩ (k, gn) [] rfl, if_pos rfl]

/-- Unfolding the backpointer walk at the start node. -/
theorem reconstruct_base (m : NavMesh) (start : ℕ) (f : ℕ) (came : List (Option (ℕ × ℕ)))
    (acc : List Portal) :
    reconstruct m start (f + 1) start came acc = pure acc.reverse := by
  rw [reconstruct, if_pos rfl]

/-- Unfolding the backpointer walk at a node with no backpointer. -/
theorem reconstruct_none (m : NavMesh) (start : ℕ) (f : ℕ) (node : ℕ)
    (came : List (Option (ℕ × ℕ))) (acc : List Portal) (h1 : node ≠ start)
    (h2 : getE came node = .ok none) :
    reconstruct m start (f + 1) node came acc = .error .unconnectedGraph := by
  rw [reconstruct, if_neg h1, h2, okBind]

/-- Unfolding the backpointer walk at a node with a backpointer. -/
theorem reconstruct_some (m : NavMesh) (start : ℕ) (f : ℕ) (node : ℕ)
    (came : List (Option (ℕ × ℕ))) (acc : List Portal) (pe : ℕ × ℕ) (h1 : node ≠ start)
    (h2 : getE came node = .ok (some pe)) :
    reconstruct m start (f + 1) node came acc = (do
      let nd ← getE m.nodes pe.1
      let e ← getE nd.edges pe.2
      reconstruct m start f pe.1 came (acc ++ [e.vertices])) := by
  rw [reconstruct, if_neg h1, h2, okBind]

/-- Claim C6: when the start cell equals the goal cell no expansion occurs:
the channel is exactly the one-element sentinel `[goal, goal]` and the refined
path is empty. -/
theorem c6_degenerate_plan (m : NavMesh) (s : ℕ) (p goalpt : Point)
    (hs : s < m.nodes.length) :
    m.plan_channel s s goalpt = .ok [(goalpt, goalpt)] ∧
      m.plan s p s goalpt = .ok [] := by
  have hch : m.plan_channel s s goalpt = .ok [(goalpt, goalpt)] := by
    obtain ⟨f, hf⟩ : ∃ f, astarFuel m = f + 1 :=
      ⟨astarFuel m - 1, by have := astarFuel_ge_two m; omega⟩
    rw [NavMesh.plan_channel]
    have hset : setE (List.replicate m.nodes.length (⊤ : Cost)) s (0 : Cost) =
        .ok ((List.replicate m.nodes.length (⊤ : Cost)).set s 0) := by
      rw [setE, if_pos (by simpa using hs)]
    rw [hset]
    simp only [okBind]
    rw [hf, astarLoop_some m s goalpt f
      ⟨[((0 : Cost), s)], (List.replicate m.nodes.length (⊤ : Cost)).set s 0,
        List.replicate m.nodes.length none⟩ ((0 : Cost), s) [] rfl, if_pos rfl]
    simp only [pureBind]
    rw [reconstruct_base]
    rfl
  refine ⟨hch, ?_⟩
  rw [NavMesh.plan, hch, okMap]
  have hrp : refine_path p [(goalpt, goalpt)] = [] := by
    rw [refine_path, refineRun_fix _ (by show ¬ (1 : ℕ) < 1; omega)]
  rw [hrp]

/-- Claim C6, witness: the one-cell, zero-edge mesh, planning cell 0 to cell 0,
yields the one-element sentinel channel and an empty refined path. -/
theorem c6_degenerate_plan_witness :
    0 < meshSingle.nodes.length ∧
      meshSingle.plan_channel 0 0 (0, 0) = .ok [((0, 0), (0, 0))] ∧
      meshSingle.plan 0 (0, 0) 0 (0, 0) = .ok [] := by
  have h0 : 0 < meshSingle.nodes.length := by simp [meshSingle]
  exact ⟨h0, c6_degenerate_plan meshSingle 0 (0, 0) (0, 0) h0⟩

/-- A sum of a zero cost and a finite coerced cost is not above the infinity
sentinel. -/
theorem not_top_le_zero_add_coe (b : ℝ) :
    ¬ (⊤ : Cost) ≤ ((0 : Cost) + ((b : ℝ) : Cost)) := by
  rw [← WithTop.coe_zero, ← WithTop.coe_add]
  exact WithTop.not_top_le_coe _

/-- The A* phase of the `right_corner` scenario: the channel is the portal of
cell 0's single edge followed by the goal sentinel. -/
theorem meshRight_channel :
    meshRight.plan_channel 0 1 ((9.5 : ℝ), (-5 : ℝ)) =
      .ok [(((9 : ℝ), (0 : ℝ)), ((10 : ℝ), (1 : ℝ))),
        (((9.5 : ℝ), (-5 : ℝ)), ((9.5 : ℝ), (-5 : ℝ)))] := by
  rw [NavMesh.plan_channel]
  have hlen : meshRight.nodes.length = 2 := rfl
  rw [hlen]
  rw [show setE (List.replicate 2 (⊤ : Cost)) 0 (0 : Cost) = .ok [(0 : Cost), ⊤] from rfl]
  simp only [okBind]
  rw [show (List.replicate 2 (none : Option (ℕ × ℕ))) = [none, none] from rfl]
  have hfuel : astarFuel meshRight = (18 + 1) + 1 := by
    simp only [astarFuel, hlen]
    norm_num
  rw [hfuel]
  rw [astarLoop_some meshRight 1 ((9.5 : ℝ), (-5 : ℝ)) (18 + 1)
    ⟨[((0 : Cost), 0)], [(0 : Cost), ⊤], [none, none]⟩ ((0 : Cost), 0) [] rfl]
  rw [if_neg (show ¬ (((0 : Cost), (0 : ℕ)).2 = 1) by decide)]
  rw [show getE meshRight.nodes 0 =
    .ok ⟨((0 : ℝ), (0 : ℝ)), [⟨(((9 : ℝ), (0 : ℝ)), ((10 : ℝ), (1 : ℝ))), 1⟩]⟩ from rfl]
  simp only [okBind]
  rw [relaxEdges]
  rw [show getE [(0 : Cost), ⊤] 0 = .ok (0 : Cost) from rfl]
  simp only [okBind]
  rw [show meshRight.edge_cost 0 0 =
    .ok (dst ((0 : ℝ), (0 : ℝ)) ((9.5 : ℝ), (-5 : ℝ))) from rfl]
  simp only [okBind]
  rw [show getE [(0 : Cost), ⊤] 1 = .ok (⊤ : Cost) from rfl]
  simp only [okBind]
  rw [if_neg (not_top_le_zero_add_coe _)]
  rw [show setE [(0 : Cost), ⊤] 1
      ((0 : Cost) + ((dst ((0 : ℝ), (0 : ℝ)) ((9.5 : ℝ), (-5 : ℝ)) : ℝ) : Cost)) =
    .ok [(0 : Cost), (0 : Cost) + ((dst ((0 : ℝ), (0 : ℝ)) ((9.5 : ℝ), (-5 : ℝ)) : ℝ) : Cost)]
    from rfl]
  simp only [okBind]
  obtain ⟨H, hH⟩ : ∃ H, meshRight.heuristic 1 ((9.5 : ℝ), (-5 : ℝ)) = .ok H := ⟨_, rfl⟩
  rw [hH]
  simp only [okBind]
  rw [show setE [(none : Option (ℕ × ℕ)), none] 1 (some (0, 0)) =
    .ok [none, some (0, 0)] from rfl]
  simp only [okBind]
  rw [relaxEdges]
  simp only [pureBind]
  rw [astarLoop_one meshRight 1 ((9.5 : ℝ), (-5 : ℝ)) 18 _ _ _]
  simp only [pureBind]
  rw [reconstruct_some meshRight 0 2 1 [none, some (0, 0)] _ (0, 0) (by decide) rfl]
  rw [show getE meshRight.nodes 0 =
    .ok ⟨((0 : ℝ), (0 : ℝ)), [⟨(((9 : ℝ), (0 : ℝ)), ((10 : ℝ), (1 : ℝ))), 1⟩]⟩ from rfl]
  simp only [okBind]
  rw [show getE (⟨((0 : ℝ), (0 : ℝ)), [⟨(((9 : ℝ), (0 : ℝ)), ((10 : ℝ), (1 : ℝ))), 1⟩]⟩ :
    Node).edges 0 = .ok ⟨(((9 : ℝ), (0 : ℝ)), ((10 : ℝ), (1 : ℝ))), 1⟩ from rfl]
  simp only [okBind]
  rw [reconstruct_base]
  rfl

/-- The A* phase of the `left_corner` scenario: the channel is the portal of
cell 0's single edge followed by the goal sentinel. -/
theorem meshLeft_channel :
    meshLeft.plan_channel 0 1 ((9.5 : ℝ), (5 : ℝ)) =
      .ok [(((10 : ℝ), (0 : ℝ)), ((9 : ℝ), (1 : ℝ))),
        (((9.5 : ℝ), (5 : ℝ)), ((9.5 : ℝ), (5 : ℝ)))] := by
  rw [NavMesh.plan_channel]
  have hlen : meshLeft.nodes.length = 2 := rfl
  rw [hlen]
  rw [show setE (List.replicate 2 (⊤ : Cost)) 0 (0 : Cost) = .ok [(0 : Cost), ⊤] from rfl]
  simp only [okBind]
  rw [show (List.replicate 2 (none : Option (ℕ × ℕ))) = [none, none] from rfl]
  have hfuel : astarFuel meshLeft = (18 + 1) + 1 := by
    simp only [astarFuel, hlen]
    norm_num
  rw [hfuel]
  rw [astarLoop_some meshLeft 1 ((9.5 : ℝ), (5 : ℝ)) (18 + 1)
    ⟨[((0 : Cost), 0)], [(0 : Cost), ⊤], [none, none]⟩ ((0 : Cost), 0) [] rfl]
  rw [if_neg (show ¬ (((0 : Cost), (0 : ℕ)).2 = 1) by decide)]
  rw [show getE meshLeft.nodes 0 =
    .ok ⟨((0 : ℝ), (0 : ℝ)), [⟨(((10 : ℝ), (0 : ℝ)), ((9 : ℝ), (1 : ℝ))), 1⟩]⟩ from rfl]
  simp only [okBind]
  rw [relaxEdges]
  rw [show getE [(0 : Cost), ⊤] 0 = .ok (0 : Cost) from rfl]
  simp only [okBind]
  rw [show meshLeft.edge_cost 0 0 =
    .ok (dst ((0 : ℝ), (0 : ℝ)) ((9.5 : ℝ), (5 : ℝ))) from rfl]
  simp only [okBind]
  rw [show getE [(0 : Cost), ⊤] 1 = .ok (⊤ : Cost) from rfl]
  simp only [okBind]
  rw [if_neg (not_top_le_zero_add_coe _)]
  rw [show setE [(0 : Cost), ⊤] 1
      ((0 : Cost) + ((dst ((0 : ℝ), (0 : ℝ)) ((9.5 : ℝ), (5 : ℝ)) : ℝ) : Cost)) =
    .ok [(0 : Cost), (0 : Cost) + ((dst ((0 : ℝ), (0 : ℝ)) ((9.5 : ℝ), (5 : ℝ)) : ℝ) : Cost)]
    from rfl]
  simp only [okBind]
  obtain ⟨H, hH⟩ : ∃ H, meshLeft.heuristic 1 ((9.5 : ℝ), (5 : ℝ)) = .ok H := ⟨_, rfl⟩
  rw [hH]
  simp only [okBind]
  rw [show setE [(none : Option (ℕ × ℕ)), none] 1 (some (0, 0)) =
    .ok [none, some (0, 0)] from rfl]
  simp only [okBind]
  rw [relaxEdges]
  simp only [pureBind]
  rw [astarLoop_one meshLeft 1 ((9.5 : ℝ), (5 : ℝ)) 18 _ _ _]
  simp only [pureBind]
  rw [reconstruct_some meshLeft 0 2 1 [none, some (0, 0)] _ (0, 0) (by decide) rfl]
  rw [show getE meshLeft.nodes 0 =
    .ok ⟨((0 : ℝ), (0 : ℝ)), [⟨(((10 : ℝ), (0 : ℝ)), ((9 : ℝ), (1 : ℝ))), 1⟩]⟩ from rfl]
  simp only [okBind]
  rw [show getE (⟨((0 : ℝ), (0 : ℝ)), [⟨(((10 : ℝ), (0 : ℝ)), ((9 : ℝ), (1 : ℝ))), 1⟩]⟩ :
    Node).edges 0 = .ok ⟨(((10 : ℝ), (0 : ℝ)), ((9 : ℝ), (1 : ℝ))), 1⟩ from rfl]
  simp only [okBind]
  rw [reconstruct_base]
  rfl

/-- Funnel refinement of the `right_corner` channel: a single left-side
collapse commits the corner `(9, 0)`. -/
theorem refine_chRight :
    refine_path ((0 : ℝ), (0 : ℝ)) [(((9 : ℝ), (0 : ℝ)), ((10 : ℝ), (1 : ℝ))),
      (((9.5 : ℝ), (-5 : ℝ)), ((9.5 : ℝ), (-5 : ℝ)))] = [((9 : ℝ), (0 : ℝ))] := by
  rw [refine_path]
  have hf : refineFuel [(((9 : ℝ), (0 : ℝ)), ((10 : ℝ), (1 : ℝ))),
      (((9.5 : ℝ), (-5 : ℝ)), ((9.5 : ℝ), (-5 : ℝ)))] = 37 + 1 := by
    rw [refineFuel]
    norm_num
  rw [hf, refineRun]
  rw [if_pos (by decide :
    (⟨((0 : ℝ), (0 : ℝ)), 0, 0, 1, []⟩ : RState).i < ([(((9 : ℝ), (0 : ℝ)), ((10 : ℝ), (1 : ℝ))),
      (((9.5 : ℝ), (-5 : ℝ)), ((9.5 : ℝ), (-5 : ℝ)))] : List Portal).length)]
  have hbody : refineBody [(((9 : ℝ), (0 : ℝ)), ((10 : ℝ), (1 : ℝ))),
      (((9.5 : ℝ), (-5 : ℝ)), ((9.5 : ℝ), (-5 : ℝ)))] ⟨((0 : ℝ), (0 : ℝ)), 0, 0, 1, []⟩ =
      ⟨((9 : ℝ), (0 : ℝ)), 1, 2, 4, [((9 : ℝ), (0 : ℝ))]⟩ := by
    simp only [refineBody, List.getD_cons_zero, List.getD_cons_succ]
    norm_num [area2]
  rw [hbody]
  rw [@refineRun_fix [(((9 : ℝ), (0 : ℝ)), ((10 : ℝ), (1 : ℝ))),
      (((9.5 : ℝ), (-5 : ℝ)), ((9.5 : ℝ), (-5 : ℝ)))]
    ⟨((9 : ℝ), (0 : ℝ)), 1, 2, 4, [((9 : ℝ), (0 : ℝ))]⟩ (by decide) 37]

/-- Funnel refinement of the `left_corner` channel: a single right-side
collapse commits the corner `(9, 1)`. -/
theorem refine_chLeft :
    refine_path ((0 : ℝ), (0 : ℝ)) [(((10 : ℝ), (0 : ℝ)), ((9 : ℝ), (1 : ℝ))),
      (((9.5 : ℝ), (5 : ℝ)), ((9.5 : ℝ), (5 : ℝ)))] = [((9 : ℝ), (1 : ℝ))] := by
  rw [refine_path]
  have hf : refineFuel [(((10 : ℝ), (0 : ℝ)), ((9 : ℝ), (1 : ℝ))),
      (((9.5 : ℝ), (5 : ℝ)), ((9.5 : ℝ), (5 : ℝ)))] = 37 + 1 := by
    rw [refineFuel]
    norm_num
  rw [hf, refineRun]
  rw [if_pos (by decide :
    (⟨((0 : ℝ), (0 : ℝ)), 0, 0, 1, []⟩ : RState).i < ([(((10 : ℝ), (0 : ℝ)), ((9 : ℝ), (1 : ℝ))),
      (((9.5 : ℝ), (5 : ℝ)), ((9.5 : ℝ), (5 : ℝ)))] : List Portal).length)]
  have hbody : refineBody [(((10 : ℝ), (0 : ℝ)), ((9 : ℝ), (1 : ℝ))),
      (((9.5 : ℝ), (5 : ℝ)), ((9.5 : ℝ), (5 : ℝ)))] ⟨((0 : ℝ), (0 : ℝ)), 0, 0, 1, []⟩ =
      ⟨((9 : ℝ), (1 : ℝ)), 1, 1, 3, [((9 : ℝ), (1 : ℝ))]⟩ := by
    simp only [refineBody, List.getD_cons_zero, List.getD_cons_succ]
    norm_num [area2]
  rw [hbody]
  rw [@refineRun_fix [(((10 : ℝ), (0 : ℝ)), ((9 : ℝ), (1 : ℝ))),
      (((9.5 : ℝ), (5 : ℝ)), ((9.5 : ℝ), (5 : ℝ)))]
    ⟨((9 : ℝ), (1 : ℝ)), 1, 1, 3, [((9 : ℝ), (1 : ℝ))]⟩ (by decide) 37]

/-- Claim C9: in the two mirrored wall-corner scenarios (the `right_corner` and
`left_corner` unit tests), `plan` returns exactly one via-point, equal to the
corner vertex of the shared portal. -/
theorem c9_corner_paths :
    meshRight.plan 0 ((0 : ℝ), (0 : ℝ)) 1 ((9.5 : ℝ), (-5 : ℝ)) = .ok [((9 : ℝ), (0 : ℝ))] ∧
      meshLeft.plan 0 ((0 : ℝ), (0 : ℝ)) 1 ((9.5 : ℝ), (5 : ℝ)) = .ok [((9 : ℝ), (1 : ℝ))] := by
  constructor
  · rw [NavMesh.plan, meshRight_channel, okMap, refine_chRight]
  · rw [NavMesh.plan, meshLeft_channel, okMap, refine_chLeft]

/-- Distances are nonnegative. -/
theorem dst_nonneg (a b : Point) : 0 ≤ dst a b := Real.sqrt_nonneg _

/-- The distance from a point to itself is zero. -/
theorem dst_self (a : Point) : dst a a = 0 := by
  rw [dst, dist2]
  norm_num

/-- Reading within bounds through `getE` returns the `getD` value. -/
theorem getE_ok {α : Type} (l : List α) (n : ℕ) (d : α) (h : n < l.length) :
    getE l n = .ok (l.getD n d) := by
  rw [getE, List.getD_eq_get?, List.get?_eq_get h]
  rfl

/-- Reading out of bounds through `getE` is the indexing panic. -/
theorem getE_oob {α : Type} (l : List α) (n : ℕ) (h : l.length ≤ n) :
    getE l n = .error .indexOob := by
  rw [getE, List.get?_eq_none.mpr h]

/-- Writing within bounds through `setE` returns the updated list. -/
theorem setE_ok {α : Type} (l : List α) (n : ℕ) (a : α) (h : n < l.length) :
    setE l n a = .ok (l.set n a) := by
  rw [setE, if_pos h]

/-- Reading an updated index. -/
theorem getD_set_self {α : Type} (l : List α) (i : ℕ) (a d : α) (h : i < l.length) :
    (l.set i a).getD i d = a := by
  simp [List.getD_eq_getElem?_getD, List.getElem?_set_self, h]

/-- Reading an untouched index. -/
theorem getD_set_ne {α : Type} (l : List α) (i j : ℕ) (a d : α) (h : j ≠ i) :
    (l.set i a).getD j d = l.getD j d := by
  simp [List.getD_eq_getElem?_getD, List.getElem?_set_ne (Ne.symm h)]

/-- `popMin` fails exactly on the empty frontier. -/
theorem popMin_none_iff (l : List (Cost × ℕ)) : popMin l = none ↔ l = [] := by
  cases l with
  | nil => simp [popMin]
  | cons x xs =>
    constructor
    · intro h
      rw [popMin] at h
      cases hx : popMin xs with
      | none =>
        rw [hx] at h
        exact absurd (show some (x, ([] : List (Cost × ℕ))) = none from h) (by simp)
      | some yr =>
        obtain ⟨y, r2⟩ := yr
        rw [hx] at h
        have h2 : (if x.1 ≤ y.1 then some (x, xs) else some (y, x :: r2)) = none := h
        by_cases hc : x.1 ≤ y.1
        · rw [if_pos hc] at h2
          exact absurd h2 (by simp)
        · rw [if_neg hc] at h2
          exact absurd h2 (by simp)
    · intro h
      exact absurd h (by simp)

/-- `popMin` removes one occurrence of an element of the frontier. -/
theorem popMin_perm :
    ∀ (l : List (Cost × ℕ)) (kc : Cost × ℕ) (rest : List (Cost × ℕ)),
      popMin l = some (kc, rest) → l.Perm (kc :: rest) := by
  intro l
  induction l with
  | nil => intro kc rest h; rw [popMin] at h; exact absurd h (by simp)
  | cons x xs ih =>
    intro kc rest h
    rw [popMin] at h
    cases hx : popMin xs with
    | none =>
      rw [hx] at h
      have hxs : xs = [] := (popMin_none_iff xs).mp hx
      have h2 : some (x, ([] : List (Cost × ℕ))) = some (kc, rest) := h
      simp only [Option.some.injEq, Prod.mk.injEq] at h2
      obtain ⟨rfl, rfl⟩ := h2
      rw [hxs]
    | some yr =>
      obtain ⟨y, r2⟩ := yr
      rw [hx] at h
      have h2 : (if x.1 ≤ y.1 then some (x, xs) else some (y, x :: r2)) = some (kc, rest) := h
      by_cases hc : x.1 ≤ y.1
      · rw [if_pos hc] at h2
        simp only [Option.some.injEq, Prod.mk.injEq] at h2
        obtain ⟨rfl, rfl⟩ := h2
        exact List.Perm.refl _
      · rw [if_neg hc] at h2
        simp only [Option.some.injEq, Prod.mk.injEq] at h2
        obtain ⟨rfl, rfl⟩ := h2
        have hperm := ih y r2 hx
        exact (hperm.cons x).trans (List.Perm.swap y x r2)

/-- Route weights are nonnegative. -/
theorem weight_nonneg (m : NavMesh) : ∀ P : List ℕ, 0 ≤ weight m P := by
  intro P
  induction P with
  | nil => rw [weight]
  | cons a t ih =>
    cases t with
    | nil => rw [weight]
    | cons b r =>
      rw [weight]
      have := dst_nonneg (m.nodes.getD a dNode).center (m.nodes.getD b dNode).center
      linarith

/-- Weight of a route extended by one cell. -/
theorem weight_append_one (m : NavMesh) :
    ∀ (P : List ℕ) (a b : ℕ), P.getLast? = some a →
      weight m (P ++ [b]) =
        weight m P + dst (m.nodes.getD a dNode).center (m.nodes.getD b dNode).center := by
  intro P
  induction P with
  | nil => intro a b h; simp at h
  | cons x t ih =>
    intro a b h
    cases t with
    | nil =>
      simp only [List.getLast?_singleton, Option.some.injEq] at h
      subst h
      show weight m [x, b] = weight m [x] + _
      rw [weight, weight, weight]
      ring
    | cons y r =>
      have hlast : (y :: r).getLast? = some a := by
        rw [← h, List.getLast?_cons_cons]
      show weight m (x :: y :: (r ++ [b])) = weight m (x :: y :: r) + _
      rw [weight, weight]
      have := ih a b hlast
      rw [show (y :: r) ++ [b] = y :: (r ++ [b]) from rfl] at this
      rw [this]
      ring

/-- Initial segments weigh no more than the full route. -/
theorem weight_take_le (m : NavMesh) :
    ∀ (P : List ℕ) (k : ℕ), weight m (P.take k) ≤ weight m P := by
  intro P
  induction P with
  | nil => intro k; rw [List.take_nil]
  | cons x t ih =>
    intro k
    cases k with
    | zero =>
      show weight m [] ≤ weight m (x :: t)
      rw [show weight m [] = 0 from rfl]
      exact weight_nonneg m _
    | succ k2 =>
      show weight m (x :: t.take k2) ≤ weight m (x :: t)
      cases t with
      | nil => rw [List.take_nil]
      | cons y r =>
        cases k2 with
        | zero =>
          show weight m [x] ≤ weight m (x :: y :: r)
          rw [show weight m [x] = 0 from rfl]
          exact weight_nonneg m _
        | succ k3 =>
          show weight m (x :: y :: r.take k3) ≤ weight m (x :: y :: r)
          rw [weight, weight]
          have h2 : weight m (y :: r.take k3) ≤ weight m (y :: r) := ih (k3 + 1)
          linarith

/-- A duplicate-free list with entries below `N` has length at most `N`. -/
theorem nodup_length_le (P : List ℕ) (N : ℕ) (h : P.Nodup) (hb : ∀ x ∈ P, x < N) :
    P.length ≤ N := by
  classical
  have h1 : P.toFinset.card = P.length := List.toFinset_card_of_nodup h
  have h2 : P.toFinset ⊆ Finset.range N := by
    intro x hx
    simp only [List.mem_toFinset] at hx
    exact Finset.mem_range.mpr (hb x hx)
  have h3 := Finset.card_le_card h2
  rw [h1, Finset.card_range] at h3
  exact h3

/-- Membership in `listsLen`. -/
theorem listsLen_mem (N : ℕ) :
    ∀ (k : ℕ) (l : List ℕ), l ∈ listsLen N k ↔ l.length ≤ k ∧ ∀ x ∈ l, x < N := by
  intro k
  induction k with
  | zero =>
    intro l
    rw [listsLen]
    simp only [Finset.mem_singleton]
    constructor
    · intro h; subst h; simp
    · intro ⟨h1, h2⟩
      cases l with
      | nil => rfl
      | cons a t => simp at h1
  | succ k2 ih =>
    intro l
    rw [listsLen]
    constructor
    · intro h
      rcases Finset.mem_union.mp h with h | h
      · rw [Finset.mem_singleton] at h
        subst h
        exact ⟨by simp, by simp⟩
      · obtain ⟨a, ha, hl⟩ := Finset.mem_biUnion.mp h
        obtain ⟨t, ht, rfl⟩ := Finset.mem_image.mp hl
        obtain ⟨ht1, ht2⟩ := (ih t).mp ht
        rw [Finset.mem_range] at ha
        refine ⟨by simp; omega, ?_⟩
        intro x hx
        rcases List.mem_cons.mp hx with rfl | hx
        · exact ha
        · exact ht2 x hx
    · intro ⟨h1, h2⟩
      cases l with
      | nil => exact Finset.mem_union_left _ (Finset.mem_singleton_self _)
      | cons a t =>
        refine Finset.mem_union_right _ (Finset.mem_biUnion.mpr ⟨a, ?_, ?_⟩)
        · exact Finset.mem_range.mpr (h2 a (by simp))
        · refine Finset.mem_image.mpr ⟨t, ?_, rfl⟩
          refine (ih t).mpr ⟨?_, ?_⟩
          · simp at h1; omega
          · intro x hx
            exact h2 x (List.mem_cons_of_mem a hx)

/-- Cardinality bound for `listsLen`. -/
theorem listsLen_card (N : ℕ) : ∀ k : ℕ, (listsLen N k).card ≤ (N + 1) ^ k := by
  intro k
  induction k with
  | zero => rw [listsLen]; simp
  | succ k2 ih =>
    rw [listsLen]
    calc ({[]} ∪ (Finset.range N).biUnion fun a => (listsLen N k2).image (a :: ·)).card ≤
        ({([] : List ℕ)} : Finset (List ℕ)).card +
          ((Finset.range N).biUnion fun a => (listsLen N k2).image (a :: ·)).card :=
          Finset.card_union_le _ _
      _ ≤ 1 + ∑ a ∈ Finset.range N, ((listsLen N k2).image (a :: ·)).card := by
          have := Finset.card_biUnion_le
            (s := Finset.range N) (t := fun a => (listsLen N k2).image (a :: ·))
          simp only [Finset.card_singleton]
          omega
      _ ≤ 1 + ∑ a ∈ Finset.range N, (listsLen N k2).card := by
          have : ∀ a ∈ Finset.range N, ((listsLen N k2).image (a :: ·)).card ≤
              (listsLen N k2).card := fun a _ => Finset.card_image_le
          have hs := Finset.sum_le_sum this
          omega
      _ ≤ 1 + N * (N + 1) ^ k2 := by
          rw [Finset.sum_const, Finset.card_range, smul_eq_mul]
          have := Nat.mul_le_mul_left N ih
          omega
      _ ≤ (N + 1) ^ (k2 + 1) := by
          rw [pow_succ]
          have h1 : 1 ≤ (N + 1) ^ k2 := Nat.one_le_pow _ _ (by omega)
          generalize (N + 1) ^ k2 = A at *
          calc 1 + N * A ≤ A + N * A := by omega
            _ = A * (N + 1) := by ring

/-- Edge chains compose with a final edge. -/
theorem edgeChain_append (m : NavMesh) :
    ∀ {a p : ℕ} {ch : List (ℕ × ℕ)}, EdgeChain m a p ch →
      ∀ {e : ℕ} {ed : Edge} {q : ℕ}, (m.nodes.getD p dNode).edges.get? e = some ed →
        ed.neighbor = q → EdgeChain m a q (ch ++ [(p, e)]) := by
  intro a p ch hch
  induction hch with
  | nil n =>
    intro e ed q hed hq
    subst hq
    exact EdgeChain.cons hed (EdgeChain.nil _)
  | cons hed2 hrest ih =>
    intro e ed q hed hq
    exact EdgeChain.cons hed2 (ih hed hq)

/-- Reachability is reflexive. -/
theorem reachable_refl (m : NavMesh) (a : ℕ) : Reachable m a a := ⟨[], EdgeChain.nil a⟩

/-- Reachability extends along an edge. -/
theorem reachable_step (m : NavMesh) {start p : ℕ} (h : Reachable m start p)
    {e : ℕ} {ed : Edge} (hed : (m.nodes.getD p dNode).edges.get? e = some ed) :
    Reachable m start ed.neighbor := by
  obtain ⟨ch, hch⟩ := h
  exact ⟨ch ++ [(p, e)], edgeChain_append m hch hed rfl⟩

/-- Reading through `getE` at a known index. -/
theorem getE_of_get? {α : Type} {l : List α} {n : ℕ} {a : α} (h : l.get? n = some a) :
    getE l n = .ok a := by
  rw [getE, h]

/-- An in-bounds `getD` value is a member. -/
theorem getD_mem {α : Type} (l : List α) (n : ℕ) (d : α) (h : n < l.length) :
    l.getD n d ∈ l := by
  rw [List.getD_eq_get?, List.get?_eq_get h]
  exact List.get_mem l n h

/-- A list whose `head?` is known is a cons. -/
theorem eq_cons_of_head? {α : Type} {P : List α} {x : α} (h : P.head? = some x) :
    P = x :: P.tail := by
  cases P with
  | nil => exact absurd h (by simp)
  | cons a t =>
    simp only [List.head?_cons, Option.some.injEq] at h
    rw [h]
    rfl

/-- The last element through `getD`. -/
theorem getD_last_of_getLast? {α : Type} {P : List α} {x : α} (d : α)
    (h : P.getLast? = some x) : P.getD (P.length - 1) d = x := by
  rw [List.getD_eq_get?, ← List.getLast?_eq_get?, h]
  rfl

/-- `getD` on the left part of an appended list. -/
theorem getD_append_left {α : Type} (P : List α) (b : α) (k : ℕ) (d : α)
    (h : k < P.length) : (P ++ [b]).getD k d = P.getD k d := by
  simp [List.getD_eq_getElem?_getD, List.getElem?_append_left h]

/-- `head?` of the left part of an appended list. -/
theorem head?_append_left {α : Type} {P : List α} {x : α} (b : α)
    (h : P.head? = some x) : (P ++ [b]).head? = some x := by
  cases P with
  | nil => exact absurd h (by simp)
  | cons a t => simp_all

/-- Costs under the loop invariant are nonnegative. -/
theorem inv_cost_nonneg {m : NavMesh} {start : ℕ} {s : AState} (hInv : AInv m start s)
    (n : ℕ) : 0 ≤ s.cost.getD n ⊤ := by
  by_cases hn : n < m.nodes.length
  · by_cases ht : s.cost.getD n ⊤ = ⊤
    · rw [ht]
      exact le_top
    · obtain ⟨P, hP, hval, -⟩ := hInv.label n hn ht
      rw [hval, ← WithTop.coe_zero, WithTop.coe_le_coe]
      exact weight_nonneg m P
  · rw [List.getD_eq_default _ _ (by rw [hInv.costLen]; omega)]
    exact le_top

/-- Effect of one successful relaxation (strict cost improvement at
`e.neighbor`): the invariant is preserved, the scanned-edges condition extends
to index `i + 1`, the popped node's cost is unchanged, no cost rises, and the
termination measure strictly decreases. -/
theorem relax_update (m : NavMesh) (start : ℕ) (hv : ValidMesh m)
    (current i : ℕ) (hcur : current < m.nodes.length) (e : Edge)
    (hget : (m.nodes.getD current dNode).edges.get? i = some e)
    (hnbr : e.neighbor < m.nodes.length)
    (s : AState) (hInv : AInv m start s) (hE : EInvAt m s current i)
    (hc : s.cost.getD current ⊤ ≠ ⊤) (hreach : Reachable m start current)
    (K : Cost) (s2 : AState)
    (hlt : s.cost.getD current ⊤ + ((dst (m.nodes.getD current dNode).center
      (m.nodes.getD e.neighbor dNode).center : ℝ) : Cost) < s.cost.getD e.neighbor ⊤)
    (hs2 : s2 = ⟨(K, e.neighbor) :: s.frontier,
      s.cost.set e.neighbor (s.cost.getD current ⊤ +
        ((dst (m.nodes.getD current dNode).center
          (m.nodes.getD e.neighbor dNode).center : ℝ) : Cost)),
      s.came_from.set e.neighbor (some (current, i))⟩) :
    AInv m start s2 ∧ EInvAt m s2 current (i + 1) ∧
      s2.cost.getD current ⊤ = s.cost.getD current ⊤ ∧
      (∀ n, s2.cost.getD n ⊤ ≤ s.cost.getD n ⊤) ∧
      mu m start s2 + 1 ≤ mu m start s := by
  classical
  obtain ⟨cr, hcr⟩ := WithTop.ne_top_iff_exists.mp hc
  have hwnn : (0 : ℝ) ≤ dst (m.nodes.getD current dNode).center
      (m.nodes.getD e.neighbor dNode).center := dst_nonneg _ _
  have hcoe : s.cost.getD current ⊤ + ((dst (m.nodes.getD current dNode).center
      (m.nodes.getD e.neighbor dNode).center : ℝ) : Cost) =
      (((cr + dst (m.nodes.getD current dNode).center
        (m.nodes.getD e.neighbor dNode).center : ℝ)) : Cost) := by
    rw [← hcr, ← WithTop.coe_add]
  have hnctop : s.cost.getD current ⊤ + ((dst (m.nodes.getD current dNode).center
      (m.nodes.getD e.neighbor dNode).center : ℝ) : Cost) ≠ ⊤ := by
    rw [hcoe]
    exact WithTop.coe_ne_top
  -- the improved target is neither the popped node nor the start node
  have hne_cur : e.neighbor ≠ current := by
    intro heqc
    rw [heqc, dst_self, WithTop.coe_zero, add_zero] at hlt
    exact lt_irrefl _ hlt
  have hne_start : e.neighbor ≠ start := by
    intro heqs
    rw [heqs, hInv.costStart] at hlt
    have h0 : (0 : Cost) ≤ s.cost.getD current ⊤ + ((dst (m.nodes.getD current dNode).center
        (m.nodes.getD start dNode).center : ℝ) : Cost) := by
      have hc0 : (0 : Cost) ≤ s.cost.getD current ⊤ := inv_cost_nonneg hInv current
      have hw0 : (0 : Cost) ≤ ((dst (m.nodes.getD current dNode).center
          (m.nodes.getD start dNode).center : ℝ) : Cost) := by
        rw [← WithTop.coe_zero, WithTop.coe_le_coe]
        exact dst_nonneg _ _
      calc (0 : Cost) = 0 + 0 := by rw [add_zero]
        _ ≤ _ := add_le_add hc0 hw0
    exact absurd hlt (not_lt.mpr h0)
  -- the cost label of the popped node
  obtain ⟨P, hPsp, hPval, hPpre⟩ := hInv.label current hcur hc
  obtain ⟨hPhead, hPlast, hPnd, hPbd⟩ := hPsp
  have hPne : P ≠ [] := by
    intro h
    rw [h] at hPhead
    exact absurd hPhead (by simp)
  -- the improved target does not lie on that label's route
  have hnotin : e.neighbor ∉ P := by
    intro hmem
    obtain ⟨k, hk⟩ := List.get?_of_mem hmem
    have hklen : k < P.length := by
      by_contra hge
      rw [List.get?_eq_none.mpr (by omega)] at hk
      simp at hk
    have hPk : P.getD k 0 = e.neighbor := by
      rw [List.getD_eq_get?, hk]
      rfl
    rcases Nat.lt_or_ge (k + 1) P.length with hk1 | hk1
    · have hb := hPpre k hk1
      rw [hPk] at hb
      have hw1 : weight m (P.take (k + 1)) ≤ weight m P := weight_take_le m P (k + 1)
      have hchain : s.cost.getD e.neighbor ⊤ ≤ ((weight m P : ℝ) : Cost) :=
        le_trans hb (by rw [WithTop.coe_le_coe]; exact hw1)
      apply absurd hlt
      rw [not_lt, hPval]
      calc s.cost.getD e.neighbor ⊤ ≤ ((weight m P : ℝ) : Cost) := hchain
        _ ≤ ((weight m P : ℝ) : Cost) + _ := le_add_of_nonneg_right
            (by rw [← WithTop.coe_zero, WithTop.coe_le_coe]; exact hwnn)
    · have hk2 : k = P.length - 1 := by omega
      have hlast2 : P.getD k 0 = current := by
        rw [hk2]
        exact getD_last_of_getLast? 0 hPlast
      rw [hPk] at hlast2
      exact hne_cur hlast2
  -- handy facts about the updated cost table
  have hlenc : e.neighbor < s.cost.length := by rw [hInv.costLen]; exact hnbr
  have hlencf : e.neighbor < s.came_from.length := by rw [hInv.cameLen]; exact hnbr
  have hval_next : (s.cost.set e.neighbor (s.cost.getD current ⊤ +
      ((dst (m.nodes.getD current dNode).center
        (m.nodes.getD e.neighbor dNode).center : ℝ) : Cost))).getD e.neighbor ⊤ =
      s.cost.getD current ⊤ + ((dst (m.nodes.getD current dNode).center
        (m.nodes.getD e.neighbor dNode).center : ℝ) : Cost) :=
    getD_set_self _ _ _ _ hlenc
  have hval_ne : ∀ n, n ≠ e.neighbor → (s.cost.set e.neighbor (s.cost.getD current ⊤ +
      ((dst (m.nodes.getD current dNode).center
        (m.nodes.getD e.neighbor dNode).center : ℝ) : Cost))).getD n ⊤ =
      s.cost.getD n ⊤ := fun n hn => getD_set_ne _ _ _ _ _ hn
  have hle2 : ∀ n, (s.cost.set e.neighbor (s.cost.getD current ⊤ +
      ((dst (m.nodes.getD current dNode).center
        (m.nodes.getD e.neighbor dNode).center : ℝ) : Cost))).getD n ⊤ ≤
      s.cost.getD n ⊤ := by
    intro n
    by_cases hn : n = e.neighbor
    · subst hn
      rw [hval_next]
      exact le_of_lt hlt
    · rw [hval_ne n hn]
  have hne_top2 : ∀ n, s.cost.getD n ⊤ ≠ ⊤ → (s.cost.set e.neighbor
      (s.cost.getD current ⊤ + ((dst (m.nodes.getD current dNode).center
        (m.nodes.getD e.neighbor dNode).center : ℝ) : Cost))).getD n ⊤ ≠ ⊤ := by
    intro n hn
    by_cases hn2 : n = e.neighbor
    · subst hn2
      rw [hval_next]
      exact hnctop
    · rw [hval_ne n hn2]
      exact hn
  have hcame_next : (s.came_from.set e.neighbor (some (current, i))).getD e.neighbor none =
      some (current, i) := getD_set_self _ _ _ _ hlencf
  have hcame_ne : ∀ n, n ≠ e.neighbor →
      (s.came_from.set e.neighbor (some (current, i))).getD n none =
      s.came_from.getD n none := fun n hn => getD_set_ne _ _ _ _ _ hn
  subst hs2
  -- the extended label route for the improved target
  have hP2sp : SimplePath m.nodes.length start e.neighbor (P ++ [e.neighbor]) := by
    refine ⟨head?_append_left _ hPhead, by simp, ?_, ?_⟩
    · simp [List.nodup_append, hPnd, hnotin]
    · intro x hx
      rcases List.mem_append.mp hx with hx | hx
      · exact hPbd x hx
      · rw [List.mem_singleton.mp hx]
        exact hnbr
  have hP2w : weight m (P ++ [e.neighbor]) = weight m P +
      dst (m.nodes.getD current dNode).center (m.nodes.getD e.neighbor dNode).center :=
    weight_append_one m P current e.neighbor hPlast
  refine ⟨⟨?_, ?_, ?_, ?_, ?_, ?_, ?_, ?_, ?_⟩, ⟨?_, ?_⟩, ?_, hle2, ?_⟩
  -- costLen
  · show (s.cost.set _ _).length = m.nodes.length
    rw [List.length_set]
    exact hInv.costLen
  -- cameLen
  · show (s.came_from.set _ _).length = m.nodes.length
    rw [List.length_set]
    exact hInv.cameLen
  -- frontierInv
  · intro kn hkn
    rcases List.mem_cons.mp hkn with rfl | hkn
    · exact ⟨hnbr, by rw [hval_next]; exact hnctop, reachable_step m hreach hget⟩
    · obtain ⟨h1, h2, h3⟩ := hInv.frontierInv kn hkn
      exact ⟨h1, hne_top2 _ h2, h3⟩
  -- costStart
  · show (s.cost.set _ _).getD start ⊤ = 0
    rw [hval_ne start (fun h => hne_start h.symm)]
    exact hInv.costStart
  -- cameStart
  · show (s.came_from.set _ _).getD start none = none
    rw [hcame_ne start (fun h => hne_start h.symm)]
    exact hInv.cameStart
  -- label
  · intro n hn hnt
    by_cases hn2 : n = e.neighbor
    · subst hn2
      refine ⟨P ++ [e.neighbor], hP2sp, ?_, ?_⟩
      · show (s.cost.set _ _).getD e.neighbor ⊤ = _
        rw [hval_next, hP2w, hPval, WithTop.coe_add]
      · intro k hk
        rw [List.length_append, List.length_singleton] at hk
        have hklt : k < P.length := by omega
        rw [getD_append_left P e.neighbor k 0 hklt,
          List.take_append_of_le_length (by omega : k + 1 ≤ P.length)]
        have hmemk : P.getD k 0 ∈ P := getD_mem P k 0 hklt
        have hnek : P.getD k 0 ≠ e.neighbor := fun h => hnotin (h ▸ hmemk)
        rw [hval_ne _ hnek]
        rcases Nat.lt_or_ge (k + 1) P.length with h1 | h1
        · exact hPpre k h1
        · have hk2 : k + 1 = P.length := by omega
          have hcurk : P.getD k 0 = current := by
            have : k = P.length - 1 := by omega
            rw [this]
            exact getD_last_of_getLast? 0 hPlast
          rw [hcurk, hk2, List.take_length, hPval]
    · have hnt2 : s.cost.getD n ⊤ ≠ ⊤ := by
        have := hval_ne n hn2
        rw [show (⟨(K, e.neighbor) :: s.frontier, s.cost.set e.neighbor _,
          s.came_from.set e.neighbor _⟩ : AState).cost = s.cost.set e.neighbor _ from rfl] at hnt
        rw [this] at hnt
        exact hnt
      obtain ⟨P3, hP3sp, hP3val, hP3pre⟩ := hInv.label n hn hnt2
      refine ⟨P3, hP3sp, ?_, ?_⟩
      · show (s.cost.set _ _).getD n ⊤ = _
        rw [hval_ne n hn2]
        exact hP3val
      · intro k hk
        exact le_trans (hle2 _) (hP3pre k hk)
  -- came
  · intro n hn p e2 hsome
    by_cases hn2 : n = e.neighbor
    · subst hn2
      rw [show (⟨(K, e.neighbor) :: s.frontier, s.cost.set e.neighbor _,
        s.came_from.set e.neighbor _⟩ : AState).came_from =
        s.came_from.set e.neighbor _ from rfl, hcame_next] at hsome
      injection hsome with hsome
      simp only [Prod.mk.injEq] at hsome
      obtain ⟨rfl, rfl⟩ := hsome
      refine ⟨hcur, ⟨e, hget, rfl⟩, ?_, ?_, hreach⟩
      · show (s.cost.set _ _).getD current ⊤ ≠ ⊤
        rw [hval_ne current (Ne.symm hne_cur)]
        exact hc
      · show (s.cost.set _ _).getD e.neighbor ⊤ ≠ ⊤
        rw [hval_next]
        exact hnctop
    · rw [show (⟨(K, e.neighbor) :: s.frontier, s.cost.set e.neighbor _,
        s.came_from.set e.neighbor _⟩ : AState).came_from =
        s.came_from.set e.neighbor _ from rfl, hcame_ne n hn2] at hsome
      obtain ⟨h1, h2, h3, h4, h5⟩ := hInv.came n hn p e2 hsome
      refine ⟨h1, h2, ?_, ?_, h5⟩
      · show (s.cost.set _ _).getD p ⊤ ≠ ⊤
        exact hne_top2 p h3
      · show (s.cost.set _ _).getD n ⊤ ≠ ⊤
        rw [hval_ne n hn2]
        exact h4
  -- connected
  · intro n hn hnt hns
    by_cases hn2 : n = e.neighbor
    · subst hn2
      show (s.came_from.set _ _).getD e.neighbor none ≠ none
      rw [hcame_next]
      simp
    · show (s.came_from.set _ _).getD n none ≠ none
      rw [hcame_ne n hn2]
      apply hInv.connected n hn ?_ hns
      rw [show (⟨(K, e.neighbor) :: s.frontier, s.cost.set e.neighbor _,
        s.came_from.set e.neighbor _⟩ : AState).cost = s.cost.set e.neighbor _ from rfl,
        hval_ne n hn2] at hnt
      exact hnt
  -- rank
  · obtain ⟨τ, hτ⟩ := hInv.rank
    refine ⟨fun x => if x = e.neighbor then ((Finset.range m.nodes.length).sup τ) + 1
      else τ x, ?_⟩
    intro n hn p e2 hsome
    rw [show (⟨(K, e.neighbor) :: s.frontier, s.cost.set e.neighbor _,
      s.came_from.set e.neighbor _⟩ : AState).came_from =
      s.came_from.set e.neighbor _ from rfl] at hsome
    by_cases hn2 : n = e.neighbor
    · subst hn2
      rw [hcame_next] at hsome
      injection hsome with hsome
      simp only [Prod.mk.injEq] at hsome
      obtain ⟨rfl, rfl⟩ := hsome
      rcases eq_or_lt_of_le hwnn with hw0 | hw0
      · right
        constructor
        · show (s.cost.set _ _).getD current ⊤ = (s.cost.set _ _).getD e.neighbor ⊤
          rw [hval_ne current (Ne.symm hne_cur), hval_next, ← hw0, WithTop.coe_zero,
            add_zero]
        · show (if current = e.neighbor then _ else τ current) <
            (if e.neighbor = e.neighbor then _ else _)
          rw [if_neg (Ne.symm hne_cur), if_pos rfl]
          have hsup : τ current ≤ (Finset.range m.nodes.length).sup τ :=
            Finset.le_sup (Finset.mem_range.mpr hcur)
          omega
      · left
        show (s.cost.set _ _).getD current ⊤ < (s.cost.set _ _).getD e.neighbor ⊤
        rw [hval_ne current (Ne.symm hne_cur), hval_next]
        have h1 : (0 : Cost) < ((dst (m.nodes.getD current dNode).center
            (m.nodes.getD e.neighbor dNode).center : ℝ) : Cost) := by
          rw [← WithTop.coe_zero, WithTop.coe_lt_coe]
          exact hw0
        calc s.cost.getD current ⊤ = s.cost.getD current ⊤ + 0 := (add_zero _).symm
          _ < _ := WithTop.add_lt_add_left hc h1
    · rw [hcame_ne n hn2] at hsome
      have hlex := hτ n hn p e2 hsome
      by_cases hp : p = e.neighbor
      · subst hp
        left
        show (s.cost.set _ _).getD e.neighbor ⊤ < (s.cost.set _ _).getD n ⊤
        rw [hval_next, hval_ne n hn2]
        have hple : s.cost.getD e.neighbor ⊤ ≤ s.cost.getD n ⊤ := by
          rcases hlex with h | h
          · exact le_of_lt h
          · exact le_of_eq h.1
        exact lt_of_lt_of_le hlt hple
      · rcases hlex with h | h
        · left
          show (s.cost.set _ _).getD p ⊤ < (s.cost.set _ _).getD n ⊤
          rw [hval_ne p hp, hval_ne n hn2]
          exact h
        · right
          constructor
          · show (s.cost.set _ _).getD p ⊤ = (s.cost.set _ _).getD n ⊤
            rw [hval_ne p hp, hval_ne n hn2]
            exact h.1
          · show (if p = e.neighbor then _ else τ p) < (if n = e.neighbor then _ else τ n)
            rw [if_neg hp, if_neg hn2]
            exact h.2
  -- EInvAt part 1
  · intro n hn hnt hncur
    by_cases hn2 : n = e.neighbor
    · subst hn2
      exact .inl ⟨K, List.mem_cons_self _ _⟩
    · have hnt2 : s.cost.getD n ⊤ ≠ ⊤ := by
        rw [show (⟨(K, e.neighbor) :: s.frontier, s.cost.set e.neighbor _,
          s.came_from.set e.neighbor _⟩ : AState).cost = s.cost.set e.neighbor _ from rfl,
          hval_ne n hn2] at hnt
        exact hnt
      rcases hE.1 n hn hnt2 hncur with ⟨k, hk⟩ | hrel
      · exact .inl ⟨k, List.mem_cons_of_mem _ hk⟩
      · right
        intro j ed hed
        have hrel2 := hrel j ed hed
        show (s.cost.set _ _).getD ed.neighbor ⊤ ≤ (s.cost.set _ _).getD n ⊤ + _
        rw [hval_ne n hn2]
        exact le_trans (hle2 _) hrel2
  -- EInvAt part 2
  · intro j ed hj hed
    by_cases hji : j < i
    · have hrel2 := hE.2 j ed hji hed
      show (s.cost.set _ _).getD ed.neighbor ⊤ ≤ (s.cost.set _ _).getD current ⊤ + _
      rw [hval_ne current (Ne.symm hne_cur)]
      exact le_trans (hle2 _) hrel2
    · have hji2 : j = i := by omega
      subst hji2
      rw [hget] at hed
      injection hed with hed
      subst hed
      show (s.cost.set _ _).getD e.neighbor ⊤ ≤ (s.cost.set _ _).getD current ⊤ + _
      rw [hval_next, hval_ne current (Ne.symm hne_cur)]
  -- cost at current unchanged
  · show (s.cost.set _ _).getD current ⊤ = s.cost.getD current ⊤
    exact hval_ne current (Ne.symm hne_cur)
  -- mu decrease
  · have hPc : start :: (P.tail ++ [e.neighbor]) = P ++ [e.neighbor] := by
      conv_rhs => rw [eq_cons_of_head? hPhead]
      rfl
    have hFsub : ((listsLen m.nodes.length m.nodes.length).filter fun l =>
        SimplePath m.nodes.length start e.neighbor (start :: l) ∧
          ((weight m (start :: l) : ℝ) : Cost) < (s.cost.set e.neighbor
            (s.cost.getD current ⊤ + ((dst (m.nodes.getD current dNode).center
              (m.nodes.getD e.neighbor dNode).center : ℝ) : Cost))).getD e.neighbor ⊤) ⊆
        ((listsLen m.nodes.length m.nodes.length).filter fun l =>
          SimplePath m.nodes.length start e.neighbor (start :: l) ∧
            ((weight m (start :: l) : ℝ) : Cost) < s.cost.getD e.neighbor ⊤) := by
      intro l hl
      rw [Finset.mem_filter] at hl ⊢
      exact ⟨hl.1, hl.2.1, lt_of_lt_of_le hl.2.2 (hle2 e.neighbor)⟩
    have hinF : (P.tail ++ [e.neighbor]) ∈ ((listsLen m.nodes.length m.nodes.length).filter
        fun l => SimplePath m.nodes.length start e.neighbor (start :: l) ∧
          ((weight m (start :: l) : ℝ) : Cost) < s.cost.getD e.neighbor ⊤) := by
      rw [Finset.mem_filter]
      refine ⟨?_, ?_, ?_⟩
      · rw [listsLen_mem]
        constructor
        · have hlenP2 : (P ++ [e.neighbor]).length ≤ m.nodes.length :=
            nodup_length_le _ _ hP2sp.2.2.1 hP2sp.2.2.2
          have hPc2 : P = start :: P.tail := eq_cons_of_head? hPhead
          rw [List.length_append, List.length_singleton]
          rw [List.length_append, List.length_singleton] at hlenP2
          have hlen3 : P.length = P.tail.length + 1 := by
            conv_lhs => rw [hPc2]
            simp
          omega
        · intro x hx
          apply hP2sp.2.2.2 x
          rw [← hPc]
          exact List.mem_cons_of_mem _ hx
      · rw [hPc]
        exact hP2sp
      · rw [hPc, hP2w, WithTop.coe_add, ← hPval]
        exact hlt
    have hnotinF2 : (P.tail ++ [e.neighbor]) ∉ ((listsLen m.nodes.length
        m.nodes.length).filter fun l =>
        SimplePath m.nodes.length start e.neighbor (start :: l) ∧
          ((weight m (start :: l) : ℝ) : Cost) < (s.cost.set e.neighbor
            (s.cost.getD current ⊤ + ((dst (m.nodes.getD current dNode).center
              (m.nodes.getD e.neighbor dNode).center : ℝ) : Cost))).getD e.neighbor ⊤) := by
      rw [Finset.mem_filter]
      intro hmem2
      have hlt2 := hmem2.2.2
      rw [hPc, hP2w, WithTop.coe_add, ← hPval, hval_next] at hlt2
      exact lt_irrefl _ hlt2
    have hstrict : labelCount m start (s.cost.set e.neighbor (s.cost.getD current ⊤ +
        ((dst (m.nodes.getD current dNode).center
          (m.nodes.getD e.neighbor dNode).center : ℝ) : Cost))) e.neighbor <
        labelCount m start s.cost e.neighbor := by
      apply Finset.card_lt_card
      rw [Finset.ssubset_def]
      exact ⟨hFsub, fun h => hnotinF2 (h hinF)⟩
    have hsubN : ∀ n, labelCount m start (s.cost.set e.neighbor (s.cost.getD current ⊤ +
        ((dst (m.nodes.getD current dNode).center
          (m.nodes.getD e.neighbor dNode).center : ℝ) : Cost))) n ≤
        labelCount m start s.cost n := by
      intro n
      apply Finset.card_le_card
      intro l hl
      rw [Finset.mem_filter] at hl ⊢
      exact ⟨hl.1, hl.2.1, lt_of_lt_of_le hl.2.2 (hle2 n)⟩
    have hmu2 : mu m start ⟨(K, e.neighbor) :: s.frontier, s.cost.set e.neighbor
        (s.cost.getD current ⊤ + ((dst (m.nodes.getD current dNode).center
          (m.nodes.getD e.neighbor dNode).center : ℝ) : Cost)),
        s.came_from.set e.neighbor (some (current, i))⟩ < mu m start s := by
      show (∑ n ∈ Finset.range m.nodes.length, labelCount m start (s.cost.set e.neighbor
        (s.cost.getD current ⊤ + ((dst (m.nodes.getD current dNode).center
          (m.nodes.getD e.neighbor dNode).center : ℝ) : Cost))) n) <
        ∑ n ∈ Finset.range m.nodes.length, labelCount m start s.cost n
      exact Finset.sum_lt_sum (fun n _ => hsubN n)
        ⟨e.neighbor, Finset.mem_range.mpr hnbr, hstrict⟩
    omega

/-- The relaxation scan over a suffix of the popped node's edges succeeds,
preserves the loop invariant, completes the relaxed-edges condition, never
raises a cost, keeps old frontier entries, and pays for every push with a
strict decrease of the termination measure. -/
theorem relaxEdges_spec (m : NavMesh) (start : ℕ) (gp : Point)
    (hv : ValidMesh m) (current : ℕ) (hcur : current < m.nodes.length) :
    ∀ (es : List Edge) (i : ℕ) (s : AState),
      AInv m start s → EInvAt m s current i →
      s.cost.getD current ⊤ ≠ ⊤ → Reachable m start current →
      (m.nodes.getD current dNode).edges.drop i = es →
      ∃ s2, relaxEdges m gp current es i s = .ok s2 ∧
        AInv m start s2 ∧ EInvAt m s2 current (i + es.length) ∧
        s2.cost.getD current ⊤ = s.cost.getD current ⊤ ∧
        (∀ n, s2.cost.getD n ⊤ ≤ s.cost.getD n ⊤) ∧
        (∀ kn ∈ s.frontier, kn ∈ s2.frontier) ∧
        mu m start s2 + s2.frontier.length ≤ mu m start s + s.frontier.length := by
  intro es
  induction es with
  | nil =>
    intro i s hInv hE hc hreach hdrop
    rw [relaxEdges]
    exact ⟨s, rfl, hInv, by simpa using hE, rfl, fun n => le_rfl, fun kn h => h, le_rfl⟩
  | cons e rest ih =>
    intro i s hInv hE hc hreach hdrop
    have hget : (m.nodes.getD current dNode).edges.get? i = some e := by
      have h0 := congrArg (fun l => l.get? 0) hdrop
      simpa [List.get?_drop] using h0
    have hrest : (m.nodes.getD current dNode).edges.drop (i + 1) = rest := by
      have h0 := congrArg List.tail hdrop
      rw [List.tail_drop] at h0
      simpa using h0
    have hnbr : e.neighbor < m.nodes.length :=
      hv _ (getD_mem m.nodes current dNode hcur) _ (List.get?_mem hget)
    have hccur : getE s.cost current = .ok (s.cost.getD current ⊤) :=
      getE_ok _ _ _ (by rw [hInv.costLen]; exact hcur)
    have hec : m.edge_cost current i = .ok (dst (m.nodes.getD current dNode).center
        (m.nodes.getD e.neighbor dNode).center) := by
      rw [NavMesh.edge_cost, getE_ok m.nodes current dNode hcur]
      simp only [okBind]
      rw [getE_of_get? hget]
      simp only [okBind]
      rw [getE_ok m.nodes e.neighbor dNode hnbr]
      simp only [okBind]
      rfl
    have hcnext : getE s.cost e.neighbor = .ok (s.cost.getD e.neighbor ⊤) :=
      getE_ok _ _ _ (by rw [hInv.costLen]; exact hnbr)
    rw [relaxEdges, hccur]
    simp only [okBind]
    rw [hec]
    simp only [okBind]
    rw [hcnext]
    simp only [okBind]
    by_cases hle : s.cost.getD e.neighbor ⊤ ≤ s.cost.getD current ⊤ +
        ((dst (m.nodes.getD current dNode).center
          (m.nodes.getD e.neighbor dNode).center : ℝ) : Cost)
    · rw [if_pos hle]
      have hE2 : EInvAt m s current (i + 1) := by
        refine ⟨hE.1, ?_⟩
        intro j ed hj hed
        rcases Nat.lt_or_ge j i with hji | hji
        · exact hE.2 j ed hji hed
        · have hji2 : j = i := by omega
          subst hji2
          rw [hget] at hed
          injection hed with hed
          subst hed
          exact hle
      obtain ⟨s2, heq, hI2, hE3, hcc, hlec, hfr, hmu⟩ := ih (i + 1) s hInv hE2 hc hreach hrest
      refine ⟨s2, heq, hI2, ?_, hcc, hlec, hfr, hmu⟩
      have hlen2 : i + (e :: rest).length = (i + 1) + rest.length := by
        simp only [List.length_cons]
        omega
      rw [hlen2]
      exact hE3
    · rw [if_neg hle]
      have hlt : s.cost.getD current ⊤ + ((dst (m.nodes.getD current dNode).center
          (m.nodes.getD e.neighbor dNode).center : ℝ) : Cost) <
          s.cost.getD e.neighbor ⊤ := not_le.mp hle
      have hsetc : setE s.cost e.neighbor (s.cost.getD current ⊤ +
          ((dst (m.nodes.getD current dNode).center
            (m.nodes.getD e.neighbor dNode).center : ℝ) : Cost)) =
          .ok (s.cost.set e.neighbor (s.cost.getD current ⊤ +
            ((dst (m.nodes.getD current dNode).center
              (m.nodes.getD e.neighbor dNode).center : ℝ) : Cost))) :=
        setE_ok _ _ _ (by rw [hInv.costLen]; exact hnbr)
      rw [hsetc]
      simp only [okBind]
      obtain ⟨H, hH⟩ : ∃ H, m.heuristic e.neighbor gp = .ok H := by
        rw [NavMesh.heuristic, getE_ok m.nodes e.neighbor dNode hnbr]
        exact ⟨_, rfl⟩
      rw [hH]
      simp only [okBind]
      have hsetf : setE s.came_from e.neighbor (some (current, i)) =
          .ok (s.came_from.set e.neighbor (some (current, i))) :=
        setE_ok _ _ _ (by rw [hInv.cameLen]; exact hnbr)
      rw [hsetf]
      simp only [okBind]
      obtain ⟨hI2, hE2, hcc2, hle2, hmu2⟩ := relax_update m start hv current i hcur e hget
        hnbr s hInv hE hc hreach (s.cost.getD current ⊤ +
          ((dst (m.nodes.getD current dNode).center
            (m.nodes.getD e.neighbor dNode).center : ℝ) : Cost) + H) _ hlt rfl
      have hc2 : (⟨(s.cost.getD current ⊤ + ((dst (m.nodes.getD current dNode).center
          (m.nodes.getD e.neighbor dNode).center : ℝ) : Cost) + H, e.neighbor) :: s.frontier,
          s.cost.set e.neighbor (s.cost.getD current ⊤ +
            ((dst (m.nodes.getD current dNode).center
              (m.nodes.getD e.neighbor dNode).center : ℝ) : Cost)),
          s.came_from.set e.neighbor (some (current, i))⟩ : AState).cost.getD current ⊤ ≠
          ⊤ := by
        rw [hcc2]
        exact hc
      obtain ⟨s3, heq3, hI3, hE3, hcc3, hle3, hfr3, hmu3⟩ :=
        ih (i + 1) _ hI2 hE2 hc2 hreach hrest
      refine ⟨s3, heq3, hI3, ?_, ?_, ?_, ?_, ?_⟩
      · have hlen2 : i + (e :: rest).length = (i + 1) + rest.length := by
          simp only [List.length_cons]
          omega
        rw [hlen2]
        exact hE3
      · rw [hcc3]
        exact hcc2
      · intro n
        exact le_trans (hle3 n) (hle2 n)
      · intro kn hkn
        exact hfr3 kn (List.mem_cons_of_mem _ hkn)
      · have hfr2len : (⟨(s.cost.getD current ⊤ +
            ((dst (m.nodes.getD current dNode).center
              (m.nodes.getD e.neighbor dNode).center : ℝ) : Cost) + H, e.neighbor) ::
            s.frontier, s.cost.set e.neighbor (s.cost.getD current ⊤ +
              ((dst (m.nodes.getD current dNode).center
                (m.nodes.getD e.neighbor dNode).center : ℝ) : Cost)),
            s.came_from.set e.neighbor (some (current, i))⟩ : AState).frontier.length =
            s.frontier.length + 1 := by
          simp
        omega

/-- The A* loop with fuel at least `1 + frontier length + measure` never
exhausts it and ends in an invariant state where either the goal is priced
(it was popped) or every priced node is fully relaxed (the frontier
emptied). -/
theorem astarLoop_spec (m : NavMesh) (start goal_node : ℕ) (gp : Point)
    (hv : ValidMesh m) :
    ∀ (fuel : ℕ) (s : AState), AInv m start s → EInv m s →
      1 + s.frontier.length + mu m start s ≤ fuel →
      ∃ s2, astarLoop m goal_node gp fuel s = .ok s2 ∧ AInv m start s2 ∧
        (s2.cost.getD goal_node ⊤ ≠ ⊤ ∨
          ∀ n, n < m.nodes.length → s2.cost.getD n ⊤ ≠ ⊤ → RelaxedAll m s2.cost n) := by
  intro fuel
  induction fuel with
  | zero =>
    intro s hInv hE hfuel
    exact absurd hfuel (by omega)
  | succ f ih =>
    intro s hInv hE hfuel
    cases hpop : popMin s.frontier with
    | none =>
      rw [astarLoop_none m goal_node gp f s hpop]
      refine ⟨s, rfl, hInv, .inr ?_⟩
      intro n hn hnt
      rcases hE n hn hnt with ⟨k, hk⟩ | hrel
      · exfalso
        rw [(popMin_none_iff _).mp hpop] at hk
        simp at hk
      · exact hrel
    | some kcrest =>
      obtain ⟨kc, rest⟩ := kcrest
      have hperm := popMin_perm s.frontier kc rest hpop
      have hkmem : kc ∈ s.frontier := hperm.mem_iff.mpr (List.mem_cons_self _ _)
      obtain ⟨hklt, hkcost, hkreach⟩ := hInv.frontierInv kc hkmem
      have hlen : s.frontier.length = rest.length + 1 := by
        rw [hperm.length_eq]
        simp
      rw [astarLoop_some m goal_node gp f s kc rest hpop]
      by_cases hgoal : kc.2 = goal_node
      · rw [if_pos hgoal]
        refine ⟨{ s with frontier := rest }, rfl, ?_, .inl ?_⟩
        · exact ⟨hInv.costLen, hInv.cameLen,
            fun kn hkn => hInv.frontierInv kn (hperm.mem_iff.mpr (List.mem_cons_of_mem _ hkn)),
            hInv.costStart, hInv.cameStart, hInv.label, hInv.came, hInv.connected, hInv.rank⟩
        · show s.cost.getD goal_node ⊤ ≠ ⊤
          rw [← hgoal]
          exact hkcost
      · rw [if_neg hgoal]
        have hnd : getE m.nodes kc.2 = .ok (m.nodes.getD kc.2 dNode) :=
          getE_ok _ _ _ hklt
        rw [hnd]
        simp only [okBind]
        have hIs : AInv m start { s with frontier := rest } :=
          ⟨hInv.costLen, hInv.cameLen,
            fun kn hkn => hInv.frontierInv kn (hperm.mem_iff.mpr (List.mem_cons_of_mem _ hkn)),
            hInv.costStart, hInv.cameStart, hInv.label, hInv.came, hInv.connected, hInv.rank⟩
        have hEs : EInvAt m { s with frontier := rest } kc.2 0 := by
          constructor
          · intro n hn hnt hncur
            rcases hE n hn hnt with ⟨k, hk⟩ | hrel
            · left
              refine ⟨k, ?_⟩
              have hkmem2 := hperm.mem_iff.mp hk
              rcases List.mem_cons.mp hkmem2 with heq | hmem2
              · exact absurd (congrArg Prod.snd heq) hncur
              · exact hmem2
            · exact .inr hrel
          · intro j ed hj hed
            exact absurd hj (by omega)
        obtain ⟨s2, heq2, hI2, hE2, hcc2, hle2, hfr2, hmu2⟩ := relaxEdges_spec m start gp hv
          kc.2 hklt (m.nodes.getD kc.2 dNode).edges 0 { s with frontier := rest }
          hIs hEs hkcost hkreach (by simp)
        rw [heq2]
        simp only [okBind]
        have hE3 : EInv m s2 := by
          intro n hn hnt
          by_cases hceq : n = kc.2
          · subst hceq
            right
            intro j ed hed
            obtain ⟨hjlt, -⟩ := List.get?_eq_some.mp hed
            exact hE2.2 j ed (by omega) hed
          · rcases hE2.1 n hn hnt hceq with h | h
            · exact .inl h
            · exact .inr h
        have hmueq : mu m start { s with frontier := rest } = mu m start s := rfl
        have hfrres : ({ s with frontier := rest } : AState).frontier.length =
            rest.length := rfl
        apply ih s2 hI2 hE3
        rw [hmueq, hfrres] at hmu2
        omega

/-- Reading a replicated list with the replicated value as default. -/
theorem getD_replicate {α : Type} (N j : ℕ) (x : α) :
    (List.replicate N x).getD j x = x := by
  rcases Nat.lt_or_ge j N with h | h
  · rw [List.getD_eq_get?, List.get?_eq_get (by simpa using h)]
    simp [List.get_replicate]
  · rw [List.getD_eq_default _ _ (by simpa using h)]

/-- The zero cost is finite. -/
theorem zero_cost_ne_top : (0 : Cost) ≠ ⊤ := by
  rw [← WithTop.coe_zero]
  exact WithTop.coe_ne_top

/-- The initial search state satisfies the loop invariant. -/
theorem AInv_init (m : NavMesh) (start : ℕ) (hs : start < m.nodes.length) :
    AInv m start ⟨[((0 : Cost), start)],
      (List.replicate m.nodes.length (⊤ : Cost)).set start 0,
      List.replicate m.nodes.length none⟩ := by
  have hcostv : ((List.replicate m.nodes.length (⊤ : Cost)).set start 0).getD start ⊤ = 0 :=
    getD_set_self _ _ _ _ (by simpa using hs)
  have hcostne : ∀ n, n ≠ start →
      ((List.replicate m.nodes.length (⊤ : Cost)).set start 0).getD n ⊤ = ⊤ := by
    intro n hn
    rw [getD_set_ne _ _ _ _ _ hn]
    exact getD_replicate _ _ _
  have hcamev : ∀ n, (List.replicate m.nodes.length (none : Option (ℕ × ℕ))).getD n none =
      none := fun n => getD_replicate _ _ _
  refine ⟨?_, ?_, ?_, ?_, ?_, ?_, ?_, ?_, ?_⟩
  · show ((List.replicate m.nodes.length (⊤ : Cost)).set start 0).length = m.nodes.length
    simp
  · show (List.replicate m.nodes.length (none : Option (ℕ × ℕ))).length = m.nodes.length
    simp
  · intro kn hkn
    rw [List.mem_singleton] at hkn
    subst hkn
    exact ⟨hs, by rw [hcostv]; exact zero_cost_ne_top, reachable_refl m start⟩
  · exact hcostv
  · exact hcamev start
  · intro n hn hnt
    by_cases hns : n = start
    · subst hns
      refine ⟨[n], ⟨by simp, by simp, by simp, by simp [hn]⟩, ?_, ?_⟩
      · rw [hcostv, show weight m [n] = 0 from rfl, WithTop.coe_zero]
      · intro k hk
        simp at hk
    · exact absurd (hcostne n hns) hnt
  · intro n hn p e hsome
    rw [hcamev n] at hsome
    exact absurd hsome (by simp)
  · intro n hn hnt hns
    exact absurd (hcostne n hns) hnt
  · refine ⟨fun _ => 0, ?_⟩
    intro n hn p e hsome
    rw [hcamev n] at hsome
    exact absurd hsome (by simp)

/-- The initial search state satisfies the completeness invariant. -/
theorem EInv_init (m : NavMesh) (start : ℕ) (hs : start < m.nodes.length) :
    EInv m ⟨[((0 : Cost), start)],
      (List.replicate m.nodes.length (⊤ : Cost)).set start 0,
      List.replicate m.nodes.length none⟩ := by
  intro n hn hnt
  by_cases hns : n = start
  · subst hns
    exact .inl ⟨0, List.mem_singleton_self _⟩
  · exfalso
    apply hnt
    show ((List.replicate m.nodes.length (⊤ : Cost)).set start 0).getD n ⊤ = ⊤
    rw [getD_set_ne _ _ _ _ _ hns]
    exact getD_replicate _ _ _

/-- The initial termination measure is bounded by the fuel budget term. -/
theorem mu_init_le (m : NavMesh) (start : ℕ) (cost : List Cost) (fr : List (Cost × ℕ))
    (came : List (Option (ℕ × ℕ))) :
    mu m start ⟨fr, cost, came⟩ ≤
      m.nodes.length * (m.nodes.length + 1) ^ m.nodes.length := by
  classical
  have h1 : ∀ n ∈ Finset.range m.nodes.length, labelCount m start cost n ≤
      (m.nodes.length + 1) ^ m.nodes.length := by
    intro n _
    calc labelCount m start cost n ≤ (listsLen m.nodes.length m.nodes.length).card :=
        Finset.card_filter_le _ _
      _ ≤ (m.nodes.length + 1) ^ m.nodes.length := listsLen_card _ _
  calc mu m start ⟨fr, cost, came⟩ ≤
      ∑ _n ∈ Finset.range m.nodes.length, (m.nodes.length + 1) ^ m.nodes.length :=
        Finset.sum_le_sum h1
    _ = m.nodes.length * (m.nodes.length + 1) ^ m.nodes.length := by
        rw [Finset.sum_const, Finset.card_range, smul_eq_mul]

/-- When every priced node is fully relaxed, every node reachable from a
priced node is priced. -/
theorem priced_along_chain (m : NavMesh) (hv : ValidMesh m) (s2 : AState)
    (hrel : ∀ n, n < m.nodes.length → s2.cost.getD n ⊤ ≠ ⊤ → RelaxedAll m s2.cost n) :
    ∀ {a b : ℕ} {ch : List (ℕ × ℕ)}, EdgeChain m a b ch → a < m.nodes.length →
      s2.cost.getD a ⊤ ≠ ⊤ → s2.cost.getD b ⊤ ≠ ⊤ := by
  intro a b ch hch
  induction hch with
  | nil n => intro h1 h2; exact h2
  | @cons a2 c e ed rest hed hrest ih =>
    intro h1 h2
    have hnb : ed.neighbor < m.nodes.length :=
      hv _ (getD_mem m.nodes a2 dNode h1) _ (List.get?_mem hed)
    have hr := hrel a2 h1 h2 e ed hed
    have hne : s2.cost.getD ed.neighbor ⊤ ≠ ⊤ := by
      apply ne_top_of_le_ne_top ?_ hr
      obtain ⟨cr, hcr⟩ := WithTop.ne_top_iff_exists.mp h2
      rw [← hcr, ← WithTop.coe_add]
      exact WithTop.coe_ne_top
    exact ih hnb hne

/-- The backpointer walk, with fuel above the walk measure, terminates at the
start node and returns exactly the portals of a start-to-node edge chain
followed by the reversed accumulator. -/
theorem reconstruct_spec (m : NavMesh) (start : ℕ)
    (came : List (Option (ℕ × ℕ))) (cost : List Cost) (τ : ℕ → ℕ)
    (hlen : came.length = m.nodes.length)
    (hcame : ∀ n, n < m.nodes.length → ∀ p e, came.getD n none = some (p, e) →
      p < m.nodes.length ∧ (∃ ed, (m.nodes.getD p dNode).edges.get? e = some ed ∧
        ed.neighbor = n) ∧ (p ≠ start → came.getD p none ≠ none))
    (hrank : ∀ n, n < m.nodes.length → ∀ p e, came.getD n none = some (p, e) →
      LexLt cost τ p n) :
    ∀ (fuel : ℕ) (node : ℕ), node < m.nodes.length → nu m cost τ node < fuel →
      (node = start ∨ came.getD node none ≠ none) →
      ∀ acc, ∃ chain, EdgeChain m start node chain ∧
        reconstruct m start fuel node came acc =
          .ok (chain.map (portalOf m) ++ acc.reverse) := by
  classical
  intro fuel
  induction fuel with
  | zero =>
    intro node h1 h2 h3 acc
    exact absurd h2 (by omega)
  | succ f ih =>
    intro node h1 h2 h3 acc
    by_cases hns : node = start
    · subst hns
      refine ⟨[], EdgeChain.nil _, ?_⟩
      rw [reconstruct_base]
      show Except.ok acc.reverse = Except.ok (List.map (portalOf m) [] ++ acc.reverse)
      simp
    · rcases h3 with h3 | h3
      · exact absurd h3 hns
      · cases hsome : came.getD node none with
        | none => exact absurd hsome h3
        | some pe =>
          obtain ⟨p, e⟩ := pe
          obtain ⟨hp, ⟨ed, hed, hnbed⟩, hpstep⟩ := hcame node h1 p e hsome
          have hget2 : getE came node = .ok (some (p, e)) := by
            rw [getE_ok came node none (by rw [hlen]; exact h1), hsome]
          have hlex := hrank node h1 p e hsome
          have hnu : nu m cost τ p < nu m cost τ node := by
            apply Finset.card_lt_card
            rw [Finset.ssubset_def]
            constructor
            · intro q hq
              rw [Finset.mem_filter] at hq ⊢
              refine ⟨hq.1, ?_⟩
              rcases hq.2 with h | h
              · rcases hlex with h2 | h2
                · exact .inl (lt_trans h h2)
                · exact .inl (by rw [← h2.1]; exact h)
              · rcases hlex with h2 | h2
                · exact .inl (by rw [h.1]; exact h2)
                · exact .inr ⟨h.1.trans h2.1, lt_trans h.2 h2.2⟩
            · intro hsub
              have hpint : p ∈ (Finset.range m.nodes.length).filter
                  fun q => LexLt cost τ q node := by
                rw [Finset.mem_filter]
                exact ⟨Finset.mem_range.mpr hp, hlex⟩
              have hpinp := hsub hpint
              rw [Finset.mem_filter] at hpinp
              rcases hpinp.2 with h | h
              · exact lt_irrefl _ h
              · exact lt_irrefl _ h.2
          have hdisj : p = start ∨ came.getD p none ≠ none := by
            by_cases hps : p = start
            · exact .inl hps
            · exact .inr (hpstep hps)
          have hnd : getE m.nodes p = .ok (m.nodes.getD p dNode) := getE_ok _ _ _ hp
          have hede : getE (m.nodes.getD p dNode).edges e = .ok ed := getE_of_get? hed
          rw [reconstruct_some m start f node came acc (p, e) hns hget2]
          rw [hnd]
          simp only [okBind]
          rw [hede]
          simp only [okBind]
          obtain ⟨chain, hchain, hrec⟩ := ih p hp (by omega) hdisj (acc ++ [ed.vertices])
          refine ⟨chain ++ [(p, e)], edgeChain_append m hchain hed hnbed, ?_⟩
          rw [hrec]
          have hport : portalOf m (p, e) = ed.vertices := by
            show ((m.nodes.getD p dNode).edges.getD e dEdge).vertices = ed.vertices
            rw [List.getD_eq_get?, hed]
            rfl
          congr 1
          rw [List.map_append]
          simp [hport, List.reverse_append, List.append_assoc]

/-- Master specification of `plan_channel` on a valid mesh: for a reachable
goal it returns the portals of an edge chain from start to goal followed by
the `[goal, goal]` sentinel; for an unreachable goal it fails with the
`unconnected graph` panic. -/
theorem plan_channel_spec (m : NavMesh) (start goal_node : ℕ) (gp : Point)
    (hv : ValidMesh m) (hs : start < m.nodes.length) (hg : goal_node < m.nodes.length) :
    (Reachable m start goal_node →
      ∃ chain, EdgeChain m start goal_node chain ∧
        m.plan_channel start goal_node gp =
          .ok (chain.map (portalOf m) ++ [(gp, gp)])) ∧
    (¬ Reachable m start goal_node →
      m.plan_channel start goal_node gp = .error .unconnectedGraph) := by
  classical
  have hset : setE (List.replicate m.nodes.length (⊤ : Cost)) start (0 : Cost) =
      .ok ((List.replicate m.nodes.length (⊤ : Cost)).set start 0) :=
    setE_ok _ _ _ (by simpa using hs)
  have hInit := AInv_init m start hs
  have hEInit := EInv_init m start hs
  have hfuel : 1 + ([((0 : Cost), start)] : List (Cost × ℕ)).length +
      mu m start ⟨[((0 : Cost), start)],
        (List.replicate m.nodes.length (⊤ : Cost)).set start 0,
        List.replicate m.nodes.length none⟩ ≤ astarFuel m := by
    have hb := mu_init_le m start ((List.replicate m.nodes.length (⊤ : Cost)).set start 0)
      [((0 : Cost), start)] (List.replicate m.nodes.length none)
    show 1 + 1 + _ ≤ _
    rw [astarFuel]
    omega
  obtain ⟨s2, hloop, hI2, hdisj⟩ := astarLoop_spec m start goal_node gp hv (astarFuel m)
    ⟨[((0 : Cost), start)], (List.replicate m.nodes.length (⊤ : Cost)).set start 0,
      List.replicate m.nodes.length none⟩ hInit hEInit hfuel
  have hpc : m.plan_channel start goal_node gp =
      reconstruct m start (m.nodes.length + 1) goal_node s2.came_from [(gp, gp)] := by
    rw [NavMesh.plan_channel, hset]
    simp only [okBind]
    rw [hloop]
    simp only [okBind]
  constructor
  · intro hreach
    have hpriced : s2.cost.getD goal_node ⊤ ≠ ⊤ := by
      rcases hdisj with h | h
      · exact h
      · obtain ⟨ch, hch⟩ := hreach
        exact priced_along_chain m hv s2 h hch hs
          (by rw [hI2.costStart]; exact zero_cost_ne_top)
    obtain ⟨τ, hτ⟩ := hI2.rank
    have hcame2 : ∀ n, n < m.nodes.length → ∀ p e,
        s2.came_from.getD n none = some (p, e) →
        p < m.nodes.length ∧ (∃ ed, (m.nodes.getD p dNode).edges.get? e = some ed ∧
          ed.neighbor = n) ∧ (p ≠ start → s2.came_from.getD p none ≠ none) := by
      intro n hn p e hsome
      obtain ⟨h1, h2, h3, h4, h5⟩ := hI2.came n hn p e hsome
      exact ⟨h1, h2, fun hps => hI2.connected p h1 h3 hps⟩
    have hdisj2 : goal_node = start ∨ s2.came_from.getD goal_node none ≠ none := by
      by_cases hgs : goal_node = start
      · exact .inl hgs
      · exact .inr (hI2.connected goal_node hg hpriced hgs)
    have hnu : nu m s2.cost τ goal_node < m.nodes.length + 1 := by
      have hb : nu m s2.cost τ goal_node ≤ m.nodes.length := by
        calc nu m s2.cost τ goal_node ≤ (Finset.range m.nodes.length).card :=
            Finset.card_filter_le _ _
          _ = m.nodes.length := Finset.card_range _
      omega
    obtain ⟨chain, hchain, hrec⟩ := reconstruct_spec m start s2.came_from s2.cost τ
      hI2.cameLen hcame2 hτ (m.nodes.length + 1) goal_node hg hnu hdisj2 [(gp, gp)]
    refine ⟨chain, hchain, ?_⟩
    rw [hpc, hrec]
    rfl
  · intro hunreach
    have hgs : goal_node ≠ start := by
      intro h
      exact hunreach (h ▸ reachable_refl m start)
    have hnone : s2.came_from.getD goal_node none = none := by
      cases hsome : s2.came_from.getD goal_node none with
      | none => rfl
      | some pe =>
        exfalso
        obtain ⟨p, e⟩ := pe
        obtain ⟨hp, ⟨ed, hed, hnb⟩, -, -, hre⟩ := hI2.came goal_node hg p e hsome
        exact hunreach (hnb ▸ reachable_step m hre hed)
    rw [hpc]
    exact reconstruct_none m start m.nodes.length goal_node s2.came_from [(gp, gp)] hgs
      (by rw [getE_ok s2.came_from goal_node none (by rw [hI2.cameLen]; exact hg), hnone])

/-- Cell 1 of the edgeless two-cell mesh is unreachable from cell 0. -/
theorem meshTwo_unreachable : ¬ Reachable meshTwo 0 1 := by
  rintro ⟨ch, hch⟩
  cases hch with
  | cons hed hrest =>
    have hnil : (meshTwo.nodes.getD 0 dNode).edges = [] := rfl
    rw [hnil] at hed
    simp at hed

/-- The two-cell edgeless mesh has valid (vacuously) edge indices. -/
theorem meshTwo_valid : ValidMesh meshTwo := by
  intro nd hnd e he
  simp only [meshTwo] at hnd
  rcases List.mem_cons.mp hnd with rfl | hnd2
  · simp at he
  · rcases List.mem_cons.mp hnd2 with rfl | hnd3
    · simp at he
    · simp at hnd3

/-- The `right_corner` mesh has valid edge indices. -/
theorem meshRight_valid : ValidMesh meshRight := by
  intro nd hnd e he
  simp only [meshRight] at hnd
  rcases List.mem_cons.mp hnd with rfl | hnd2
  · simp only [List.mem_singleton] at he
    subst he
    simp [meshRight]
  · rcases List.mem_cons.mp hnd2 with rfl | hnd3
    · simp only [List.mem_singleton] at he
      subst he
      simp [meshRight]
    · simp at hnd3

/-- Cell 1 of the `right_corner` mesh is reachable from cell 0. -/
theorem meshRight_reach : Reachable meshRight 0 1 :=
  ⟨[(0, 0)], EdgeChain.cons (show (meshRight.nodes.getD 0 dNode).edges.get? 0 =
    some ⟨(((9 : ℝ), (0 : ℝ)), ((10 : ℝ), (1 : ℝ))), 1⟩ from rfl) (EdgeChain.nil 1)⟩

/-- Claim C4: when the goal cell is unreachable from the start cell — so the
A* frontier empties without ever popping the goal — `plan` fails loudly with
the `expect("unconnected graph")` panic instead of returning a partial or
best-effort path. -/
theorem c4_disconnected_panics (m : NavMesh) (start_node goal_node : ℕ)
    (p q : Point) (hv : ValidMesh m) (hs : start_node < m.nodes.length)
    (hg : goal_node < m.nodes.length) (hun : ¬ Reachable m start_node goal_node) :
    m.plan start_node p goal_node q = .error .unconnectedGraph := by
  rw [NavMesh.plan, (plan_channel_spec m start_node goal_node q hv hs hg).2 hun, errMap]

/-- Claim C4, witness: the two-cell edgeless mesh. -/
theorem c4_disconnected_panics_witness :
    ValidMesh meshTwo ∧ 0 < meshTwo.nodes.length ∧ 1 < meshTwo.nodes.length ∧
      ¬ Reachable meshTwo 0 1 ∧
      meshTwo.plan 0 (0, 0) 1 (1, 1) = .error .unconnectedGraph :=
  ⟨meshTwo_valid, by norm_num [meshTwo], by norm_num [meshTwo], meshTwo_unreachable,
    c4_disconnected_panics meshTwo 0 1 (0, 0) (1, 1) meshTwo_valid
      (by norm_num [meshTwo]) (by norm_num [meshTwo]) meshTwo_unreachable⟩

/-- Claim C7: for a reachable goal, the returned channel is exactly the portal
segments of the edges of a chain of cell-adjacencies from the start cell to
the goal cell, each taken in the owning predecessor cell's local vertex order
and listed in start-to-goal order, followed by the degenerate sentinel portal
`[goal, goal]`. -/
theorem c7_channel_structure (m : NavMesh) (start_node goal_node : ℕ) (gp : Point)
    (hv : ValidMesh m) (hs : start_node < m.nodes.length)
    (hg : goal_node < m.nodes.length) (hre : Reachable m start_node goal_node) :
    ∃ chain, EdgeChain m start_node goal_node chain ∧
      m.plan_channel start_node goal_node gp =
        .ok (chain.map (portalOf m) ++ [(gp, gp)]) :=
  (plan_channel_spec m start_node goal_node gp hv hs hg).1 hre

/-- Claim C7, witness: the `right_corner` mesh. -/
theorem c7_channel_structure_witness :
    ValidMesh meshRight ∧ Reachable meshRight 0 1 ∧
      ∃ chain, EdgeChain meshRight 0 1 chain ∧
        meshRight.plan_channel 0 1 ((9.5 : ℝ), (-5 : ℝ)) =
          .ok (chain.map (portalOf meshRight) ++
            [(((9.5 : ℝ), (-5 : ℝ)), ((9.5 : ℝ), (-5 : ℝ)))]) :=
  ⟨meshRight_valid, meshRight_reach,
    c7_channel_structure meshRight 0 1 ((9.5 : ℝ), (-5 : ℝ)) meshRight_valid
      (by norm_num [meshRight]) (by norm_num [meshRight]) meshRight_reach⟩

/-- Claim C8: on a valid mesh whose goal cell is reachable from the start
cell, `plan` terminates and returns a (finite) list of points: the A* loop
and the backpointer walk complete within their fuel, and the funnel scan is
insensitive to any extra fuel beyond its built-in budget (the embedding of
the fact that the scan, whose index can jump backwards after a collapse,
terminates). -/
theorem c8_plan_terminates (m : NavMesh) (start_node goal_node : ℕ)
    (p q : Point) (hv : ValidMesh m) (hs : start_node < m.nodes.length)
    (hg : goal_node < m.nodes.length) (hre : Reachable m start_node goal_node) :
    ∃ channel pts, m.plan_channel start_node goal_node q = .ok channel ∧
      m.plan start_node p goal_node q = .ok pts ∧
      pts = refine_path p channel ∧
      ∀ extra, refineRun channel (refineFuel channel + extra) ⟨p, 0, 0, 1, []⟩ =
        refineRun channel (refineFuel channel) ⟨p, 0, 0, 1, []⟩ := by
  obtain ⟨chain, hchain, hok⟩ := (plan_channel_spec m start_node goal_node q hv hs hg).1 hre
  refine ⟨chain.map (portalOf m) ++ [(q, q)], _, hok, ?_, rfl, ?_⟩
  · rw [NavMesh.plan, hok, okMap]
  · intro extra
    have h1 := refineRun_stable (chain.map (portalOf m) ++ [(q, q)])
      (InvR_init (chain.map (portalOf m) ++ [(q, q)]).length p)
      (refineFuel (chain.map (portalOf m) ++ [(q, q)]) + extra)
      (le_trans (refineFuel_ge _ p) (by omega))
    have h2 := refineRun_stable (chain.map (portalOf m) ++ [(q, q)])
      (InvR_init (chain.map (portalOf m) ++ [(q, q)]).length p)
      (refineFuel (chain.map (portalOf m) ++ [(q, q)])) (refineFuel_ge _ p)
    rw [h1, h2]

/-- Claim C8, witness: the `right_corner` mesh. -/
theorem c8_plan_terminates_witness :
    ValidMesh meshRight ∧ Reachable meshRight 0 1 ∧
      ∃ channel pts, meshRight.plan_channel 0 1 ((9.5 : ℝ), (-5 : ℝ)) = .ok channel ∧
        meshRight.plan 0 ((0 : ℝ), (0 : ℝ)) 1 ((9.5 : ℝ), (-5 : ℝ)) = .ok pts ∧
        pts = refine_path ((0 : ℝ), (0 : ℝ)) channel ∧
        ∀ extra, refineRun channel (refineFuel channel + extra)
            ⟨((0 : ℝ), (0 : ℝ)), 0, 0, 1, []⟩ =
          refineRun channel (refineFuel channel) ⟨((0 : ℝ), (0 : ℝ)), 0, 0, 1, []⟩ :=
  ⟨meshRight_valid, meshRight_reach,
    c8_plan_terminates meshRight 0 1 ((0 : ℝ), (0 : ℝ)) ((9.5 : ℝ), (-5 : ℝ))
      meshRight_valid (by norm_num [meshRight]) (by norm_num [meshRight]) meshRight_reach⟩

/-- Claim C10: `NavMesh::new` performs no validation (any node list, even with
dangling indices, is freely constructible), and under the precondition that
the start cell, goal cell and every edge's neighbor index are valid indices,
no indexing-panic branch of `plan` is reachable: the result is never the
out-of-bounds panic. -/
theorem c10_bounds_safety (m : NavMesh) (start_node goal_node : ℕ)
    (hv : ValidMesh m) (hs : start_node < m.nodes.length)
    (hg : goal_node < m.nodes.length) :
    (∀ nodes : List Node, (NavMesh.new nodes).nodes = nodes) ∧
      ∀ p q, m.plan start_node p goal_node q ≠ .error .indexOob := by
  refine ⟨fun nodes => rfl, ?_⟩
  intro p q
  by_cases hre : Reachable m start_node goal_node
  · obtain ⟨chain, hchain, hok⟩ := (plan_channel_spec m start_node goal_node q hv hs hg).1 hre
    rw [NavMesh.plan, hok, okMap]
    intro hcon
    injection hcon
  · rw [NavMesh.plan, (plan_channel_spec m start_node goal_node q hv hs hg).2 hre, errMap]
    intro hcon
    injection hcon with h
    cases h

/-- Claim C10, witness: the `right_corner` mesh. -/
theorem c10_bounds_safety_witness :
    ValidMesh meshRight ∧ 0 < meshRight.nodes.length ∧ 1 < meshRight.nodes.length ∧
      ((∀ nodes : List Node, (NavMesh.new nodes).nodes = nodes) ∧
        ∀ p q, meshRight.plan 0 p 1 q ≠ .error .indexOob) :=
  ⟨meshRight_valid, by norm_num [meshRight], by norm_num [meshRight],
    c10_bounds_safety meshRight 0 1 meshRight_valid (by norm_num [meshRight])
      (by norm_num [meshRight])⟩

end Nav
